import Mathlib

set_option maxRecDepth 200000

/-!
Verification of the probe indexing and retrieval engine.

This file gives a shallow embedding, in Lean 4, of the parts of the probe
code base that the verified claims are about:

* hashing and identifier derivation (src/probe/indexing.py: compute_point_id,
  compute_chunk_hash, compute_file_hash) including concrete SHA-256, SHA-1,
  UUIDv5 and UTF-8 implementations so that every derived value is computable;
* the text chunkers (src/probe/chunking/text.py: chunk_markdown, chunk_lines)
  and the dispatch in src/probe/chunking: chunk_file;
* the catalog (src/probe/storage/manifest.py) and the vector store client
  (src/probe/storage/qdrant.py) as explicit state;
* the single-file indexing operation (src/probe/indexing.py: index_file);
* snippet materialization and search assembly (src/probe/retrieval.py:
  generate_snippet, search);
* the open_file tool handler (src/probe/server.py: handle_open_file).

File content is modelled as List Char with the single line terminator
character of code point 10; machine integers are Nat or Int with explicit
reduction modulo 2 ^ 32 where the algorithms require it.  External services
(embedding service, vector store transport, reranker) are oracles passed as
explicit arguments; the filesystem is an explicit lookup structure.
-/

namespace Probe

namespace Hash

/-- Reduce modulo 2 ^ 32 (all SHA words are 32-bit). -/
def w32 (n : Nat) : Nat := n % 4294967296

def rotr32 (n x : Nat) : Nat := w32 ((x >>> n) ||| (x <<< (32 - n)))

def rotl32 (n x : Nat) : Nat := w32 ((x <<< n) ||| (x >>> (32 - n)))

/-- Pad a message as SHA-1 and SHA-256 both do: a 0x80 byte, zeros up to 56
mod 64, then the bit length as 8 big-endian bytes. -/
def padMsg (msg : List Nat) : List Nat :=
  let L := msg.length
  let p := (119 - L % 64) % 64
  let bits := L * 8
  msg ++ 0x80 :: List.replicate p 0 ++
    (List.range 8).map (fun i => (bits >>> (8 * (7 - i))) % 256)

/-- Group a byte list into big-endian 32-bit words. -/
def bytesToWords : List Nat → List Nat
  | b0 :: b1 :: b2 :: b3 :: rest =>
      (((b0 * 256 + b1) * 256 + b2) * 256 + b3) :: bytesToWords rest
  | _ => []

/-- Split a word list into blocks of 16 (fuel-based so the kernel reduces it). -/
def toBlocksAux : Nat → List Nat → List (List Nat)
  | _, [] => []
  | 0, l => [l]
  | fuel + 1, l => l.take 16 :: toBlocksAux fuel (l.drop 16)

def toBlocks (ws : List Nat) : List (List Nat) := toBlocksAux ws.length ws

def sha256K : List Nat :=
  [1116352408, 1899447441, 3049323471, 3921009573, 961987163,
   1508970993, 2453635748, 2870763221, 3624381080, 310598401,
   607225278, 1426881987, 1925078388, 2162078206, 2614888103,
   3248222580, 3835390401, 4022224774, 264347078, 604807628,
   770255983, 1249150122, 1555081692, 1996064986, 2554220882,
   2821834349, 2952996808, 3210313671, 3336571891, 3584528711,
   113926993, 338241895, 666307205, 773529912, 1294757372,
   1396182291, 1695183700, 1986661051, 2177026350, 2456956037,
   2730485921, 2820302411, 3259730800, 3345764771, 3516065817,
   3600352804, 4094571909, 275423344, 430227734, 506948616,
   659060556, 883997877, 958139571, 1322822218, 1537002063,
   1747873779, 1955562222, 2024104815, 2227730452, 2361852424,
   2428436474, 2756734187, 3204031479, 3329325298]

def schedStep (acc : Array Nat) : Array Nat :=
  let n := acc.size
  let x15 := acc.getD (n - 15) 0
  let x2 := acc.getD (n - 2) 0
  let s0 := (rotr32 7 x15) ^^^ (rotr32 18 x15) ^^^ (x15 >>> 3)
  let s1 := (rotr32 17 x2) ^^^ (rotr32 19 x2) ^^^ (x2 >>> 10)
  acc.push (w32 (acc.getD (n - 16) 0 + s0 + acc.getD (n - 7) 0 + s1))

structure St8 where
  a : Nat
  b : Nat
  c : Nat
  d : Nat
  e : Nat
  f : Nat
  g : Nat
  h : Nat

def sha256Round (st : St8) (kw : Nat × Nat) : St8 :=
  let S1 := (rotr32 6 st.e) ^^^ (rotr32 11 st.e) ^^^ (rotr32 25 st.e)
  let ch := (st.e &&& st.f) ^^^ ((0xffffffff ^^^ st.e) &&& st.g)
  let t1 := w32 (st.h + S1 + ch + kw.1 + kw.2)
  let S0 := (rotr32 2 st.a) ^^^ (rotr32 13 st.a) ^^^ (rotr32 22 st.a)
  let mj := (st.a &&& st.b) ^^^ (st.a &&& st.c) ^^^ (st.b &&& st.c)
  let t2 := w32 (S0 + mj)
  ⟨w32 (t1 + t2), st.a, st.b, st.c, w32 (st.d + t1), st.e, st.f, st.g⟩

def sha256Block (h8 : St8) (block : List Nat) : St8 :=
  let ws := ((List.range 48).foldl (fun a _ => schedStep a) (Array.mk block)).toList
  let st := (sha256K.zip ws).foldl sha256Round h8
  ⟨w32 (h8.a + st.a), w32 (h8.b + st.b), w32 (h8.c + st.c), w32 (h8.d + st.d),
   w32 (h8.e + st.e), w32 (h8.f + st.f), w32 (h8.g + st.g), w32 (h8.h + st.h)⟩

def wordToBytes (x : Nat) : List Nat :=
  [(x >>> 24) % 256, (x >>> 16) % 256, (x >>> 8) % 256, x % 256]

/-- SHA-256 digest of a byte list, as 32 bytes. -/
def sha256 (msg : List Nat) : List Nat :=
  let init : St8 :=
    ⟨1779033703, 3144134277, 1013904242, 2773480762,
     1359893119, 2600822924, 528734635, 1541459225⟩
  let fin := (toBlocks (bytesToWords (padMsg msg))).foldl sha256Block init
  wordToBytes fin.a ++ wordToBytes fin.b ++ wordToBytes fin.c ++ wordToBytes fin.d ++
  wordToBytes fin.e ++ wordToBytes fin.f ++ wordToBytes fin.g ++ wordToBytes fin.h

def hexDigitChar (n : Nat) : Char :=
  if n < 10 then Char.ofNat (48 + n) else Char.ofNat (87 + n)

def byteToHex (b : Nat) : List Char := [hexDigitChar (b / 16), hexDigitChar (b % 16)]

/-- Lowercase hex digest string, as hashlib hexdigest produces. -/
def hexdigest (bs : List Nat) : String := String.mk (bs.flatMap byteToHex)

def sha256hex (msg : List Nat) : String := hexdigest (sha256 msg)

structure St5 where
  a : Nat
  b : Nat
  c : Nat
  d : Nat
  e : Nat

def sha1SchedStep (acc : Array Nat) : Array Nat :=
  let n := acc.size
  acc.push (rotl32 1 (acc.getD (n - 3) 0 ^^^ acc.getD (n - 8) 0 ^^^
                     acc.getD (n - 14) 0 ^^^ acc.getD (n - 16) 0))

def sha1Round (st : St5) (iw : Nat × Nat) : St5 :=
  let i := iw.1
  let f :=
    if i < 20 then (st.b &&& st.c) ||| ((0xffffffff ^^^ st.b) &&& st.d)
    else if i < 40 then st.b ^^^ st.c ^^^ st.d
    else if i < 60 then (st.b &&& st.c) ||| (st.b &&& st.d) ||| (st.c &&& st.d)
    else st.b ^^^ st.c ^^^ st.d
  let k :=
    if i < 20 then 0x5a827999
    else if i < 40 then 0x6ed9eba1
    else if i < 60 then 0x8f1bbcdc
    else 0xca62c1d6
  ⟨w32 (rotl32 5 st.a + f + st.e + k + iw.2), st.a, rotl32 30 st.b, st.c, st.d⟩

def sha1Block (h5 : St5) (block : List Nat) : St5 :=
  let ws := ((List.range 64).foldl (fun a _ => sha1SchedStep a) (Array.mk block)).toList
  let st := ws.enum.foldl sha1Round h5
  ⟨w32 (h5.a + st.a), w32 (h5.b + st.b), w32 (h5.c + st.c), w32 (h5.d + st.d), w32 (h5.e + st.e)⟩

/-- SHA-1 digest of a byte list, as 20 bytes. -/
def sha1 (msg : List Nat) : List Nat :=
  let init : St5 := ⟨1732584193, 4023233417, 2562383102, 271733878, 3285377520⟩
  let fin := (toBlocks (bytesToWords (padMsg msg))).foldl sha1Block init
  wordToBytes fin.a ++ wordToBytes fin.b ++ wordToBytes fin.c ++
  wordToBytes fin.d ++ wordToBytes fin.e

end Hash

/-! UTF-8 encoding and strict decoding (Python str.encode and bytes.decode). -/

def utf8EncodeChar (c : Char) : List Nat :=
  let n := c.toNat
  if n < 0x80 then [n]
  else if n < 0x800 then [0xC0 ||| (n >>> 6), 0x80 ||| (n &&& 0x3F)]
  else if n < 0x10000 then
    [0xE0 ||| (n >>> 12), 0x80 ||| ((n >>> 6) &&& 0x3F), 0x80 ||| (n &&& 0x3F)]
  else
    [0xF0 ||| (n >>> 18), 0x80 ||| ((n >>> 12) &&& 0x3F),
     0x80 ||| ((n >>> 6) &&& 0x3F), 0x80 ||| (n &&& 0x3F)]

def utf8Encode (cs : List Char) : List Nat := cs.flatMap utf8EncodeChar

def utf8EncodeStr (s : String) : List Nat := utf8Encode s.data

def isCont (b : Nat) : Bool := 0x80 ≤ b ∧ b ≤ 0xBF

/-- Strict UTF-8 decoder (fuel-based; fuel is the list length).  Rejects
continuation-byte leads, overlong forms, surrogates and values above
0x10FFFF, exactly as the strict Python codec does. -/
def utf8DecodeAux : Nat → List Nat → Option (List Char)
  | _, [] => some []
  | 0, _ :: _ => none
  | fuel + 1, b :: rest =>
    if b ≤ 0x7F then (utf8DecodeAux fuel rest).map (fun cs => Char.ofNat b :: cs)
    else if b ≤ 0xC1 then none
    else if b ≤ 0xDF then
      match rest with
      | b2 :: rest2 =>
        if isCont b2 then
          (utf8DecodeAux fuel rest2).map
            (fun cs => Char.ofNat (((b - 0xC0) <<< 6) ||| (b2 - 0x80)) :: cs)
        else none
      | [] => none
    else if b ≤ 0xEF then
      match rest with
      | b2 :: b3 :: rest3 =>
        if isCont b2 ∧ isCont b3 ∧ (b ≠ 0xE0 ∨ 0xA0 ≤ b2) ∧ (b ≠ 0xED ∨ b2 ≤ 0x9F) then
          (utf8DecodeAux fuel rest3).map
            (fun cs =>
              Char.ofNat (((b - 0xE0) <<< 12) ||| ((b2 - 0x80) <<< 6) ||| (b3 - 0x80)) :: cs)
        else none
      | _ => none
    else if b ≤ 0xF4 then
      match rest with
      | b2 :: b3 :: b4 :: rest4 =>
        if isCont b2 ∧ isCont b3 ∧ isCont b4 ∧
           (b ≠ 0xF0 ∨ 0x90 ≤ b2) ∧ (b ≠ 0xF4 ∨ b2 ≤ 0x8F) then
          (utf8DecodeAux fuel rest4).map
            (fun cs =>
              Char.ofNat (((b - 0xF0) <<< 18) ||| ((b2 - 0x80) <<< 12) |||
                          ((b3 - 0x80) <<< 6) ||| (b4 - 0x80)) :: cs)
        else none
      | _ => none
    else none

def utf8Decode (bs : List Nat) : Option (List Char) := utf8DecodeAux bs.length bs

/-! UUIDs (Python uuid module, as used by indexing.py). -/

/-- The fixed namespace from src/probe/indexing.py:
UUID 6ba7b810-9dad-11d1-80b4-00c04fd430c8, as 16 bytes. -/
def NAMESPACE : List Nat :=
  [0x6b, 0xa7, 0xb8, 0x10, 0x9d, 0xad, 0x11, 0xd1,
   0x80, 0xb4, 0x00, 0xc0, 0x4f, 0xd4, 0x30, 0xc8]

/-- UUIDv5: SHA-1 of namespace bytes plus name bytes, truncated to 16 bytes,
with the version nibble set to 5 and the RFC 4122 variant bits set. -/
def uuid5 (ns nameBytes : List Nat) : List Nat :=
  let d := (Hash.sha1 (ns ++ nameBytes)).take 16
  let d6 := (d.getD 6 0 &&& 0x0F) ||| 0x50
  let d8 := (d.getD 8 0 &&& 0x3F) ||| 0x80
  (d.set 6 d6).set 8 d8

/-- Canonical lowercase hyphenated string form of a 16-byte UUID. -/
def uuidToString (bs : List Nat) : String :=
  let hex := fun (l : List Nat) => l.flatMap Hash.byteToHex
  String.mk (hex (bs.take 4) ++ '-' :: hex ((bs.drop 4).take 2) ++
             '-' :: hex ((bs.drop 6).take 2) ++ '-' :: hex ((bs.drop 8).take 2) ++
             '-' :: hex (bs.drop 10))

end Probe

-- Known answer: SHA-256 of the three bytes of abc.
example :
    Probe.Hash.sha256hex [97, 98, 99] =
      "ba7816bf8f01cfea414140de5dae2223b00361a396177a9cb410ff61f20015ad" := by decide

-- Known answer: SHA-1 of the three bytes of abc.
example :
    Probe.Hash.hexdigest (Probe.Hash.sha1 [97, 98, 99]) =
      "a9993e364706816aba3e25717850c26c9cd0d89d" := by decide

-- Known answer from RFC 4122: the version-5 UUID of python.org in the DNS
-- namespace (the byte constant NAMESPACE of indexing.py equals that namespace).
example :
    Probe.uuidToString
        (Probe.uuid5 Probe.NAMESPACE (Probe.utf8EncodeStr "python.org")) =
      "886313e1-3b8a-5372-9b90-0c9aee199e5d" := by decide


namespace Probe

/-! Text as lists of characters; Python line splitting and slicing. -/

/-- File text: a list of characters (code point 10 is the line terminator). -/
abbrev Text := List Char

/-- Render a Lean string literal as Text. -/
def strT (s : String) : Text := s.data

/-- Split on the newline character, keeping a (possibly empty) last part,
like the Python str.split constructor for a single separator. -/
def splitOnNl : Text → List Text
  | [] => [[]]
  | c :: rest =>
    if c = '\n' then [] :: splitOnNl rest
    else
      match splitOnNl rest with
      | [] => [[c]]
      | l :: ls => (c :: l) :: ls

/-- Join with the newline character (Python "\n".join). -/
def intercalateNl : List Text → Text
  | [] => []
  | [l] => l
  | l :: ls => l ++ '\n' :: intercalateNl ls

/-- The line-boundary characters of Python str.splitlines: newline, carriage
return, vertical tab, form feed, the file, group and record separators, the
next-line character, and the Unicode line and paragraph separators. -/
def pyLineBreak (c : Char) : Bool :=
  c = '\n' ∨ c = '\r' ∨ c = '\x0b' ∨ c = '\x0c' ∨ c = '\x1c' ∨ c = '\x1d' ∨
  c = '\x1e' ∨ c = '\x85' ∨ c = '\u2028' ∨ c = '\u2029'

/-- Python str.splitlines: cut at every line-boundary character, a carriage
return directly followed by a newline counting as a single boundary.
Boundaries terminate lines rather than separating them, so a final boundary
opens no further line and the empty text has no lines. -/
def splitlines : Text → List Text
  | [] => []
  | c :: rest =>
    if c = '\r' then
      match rest with
      | [] => [[]]
      | '\n' :: rest2 => [] :: splitlines rest2
      | c2 :: rest2 => [] :: splitlines (c2 :: rest2)
    else if pyLineBreak c then [] :: splitlines rest
    else
      match splitlines rest with
      | [] => [[c]]
      | l :: ls => (c :: l) :: ls

/-- Text in which the newline character is the only line-boundary character
present. -/
def nlOnly (cs : Text) : Prop := ∀ c ∈ cs, pyLineBreak c = true → c = '\n'

instance instDecidableNlOnly (cs : Text) : Decidable (nlOnly cs) :=
  List.decidableBAll _ cs

/-- Python list slice l[a:b] for non-negative bounds. -/
def pySlice (l : List α) (a b : Nat) : List α := (l.take b).drop a

/-- The Python Unicode whitespace characters: the default set of str.strip
and the character class backslash-s of the regular expression module. -/
def pyIsSpace (c : Char) : Bool :=
  c = ' ' ∨ c = '\t' ∨ c = '\n' ∨ c = '\r' ∨ c = '\x0b' ∨ c = '\x0c' ∨
  c = '\x1c' ∨ c = '\x1d' ∨ c = '\x1e' ∨ c = '\x1f' ∨ c = '\x85' ∨ c = '\xa0' ∨
  c = '\u1680' ∨ ('\u2000' ≤ c ∧ c ≤ '\u200a') ∨ c = '\u2028' ∨ c = '\u2029' ∨
  c = '\u202f' ∨ c = '\u205f' ∨ c = '\u3000'

/-- Python str.strip with the default whitespace set. -/
def pyStrip (cs : Text) : Text :=
  ((cs.dropWhile pyIsSpace).reverse.dropWhile pyIsSpace).reverse

/-- Universal-newline translation performed by Python read_text: carriage
return plus newline, and lone carriage return, both become newline. -/
def univNl : Text → Text
  | [] => []
  | '\r' :: '\n' :: rest => '\n' :: univNl rest
  | '\r' :: rest => '\n' :: univNl rest
  | c :: rest => c :: univNl rest

/-! Chunk data model (src/probe/types.py). -/

inductive ChunkKind
  | code
  | doc
  | config
deriving DecidableEq

structure Chunk where
  filePath : String
  startLine : Nat
  endLine : Nat
  content : Text
  language : Option String
  kind : ChunkKind
  symbol : Option Text
deriving DecidableEq

/-! Markdown chunker (src/probe/chunking/text.py: chunk_markdown). -/

/-- Number of leading hash characters of a line. -/
def countLeadingHashes : Text → Nat
  | '#' :: rest => countLeadingHashes rest + 1
  | _ => 0

/-- Whether the ATX heading regex of chunk_markdown matches the line:
one to six leading hashes, then at least one whitespace character, then at
least one further character. -/
def isHeadingLine (l : Text) : Bool :=
  let h := countLeadingHashes l
  (1 ≤ h && h ≤ 6 && h + 2 ≤ l.length) &&
    (match l.drop h with
     | c :: _ => pyIsSpace c
     | [] => false)

/-- The stripped second capture group of the heading regex.  The group is the
line after the hashes and the greedily matched whitespace run; stripping it
gives the same text as stripping everything after the hashes. -/
def headingText (l : Text) : Text :=
  pyStrip (l.drop (countLeadingHashes l))

/-- The main loop of chunk_markdown over the enumerated lines, carrying the
accumulated chunks, the current section start index and the current heading.
On exhaustion it appends the final section, when nonempty after stripping. -/
def mdLoop (path : String) (lines : List Text) :
    List (Nat × Text) → List Chunk → Nat → Text → List Chunk
  | [], chunks, curStart, curHeading =>
    if curStart < lines.length then
      let sec := intercalateNl (pySlice lines curStart lines.length)
      if pyStrip sec ≠ [] then
        chunks ++ [⟨path, curStart + 1, lines.length, sec, some "markdown", .doc,
                    some curHeading⟩]
      else chunks
    else chunks
  | (i, line) :: rest, chunks, curStart, curHeading =>
    if isHeadingLine line then
      let chunks2 :=
        if curStart < i then
          let sec := intercalateNl (pySlice lines curStart i)
          if pyStrip sec ≠ [] then
            chunks ++ [⟨path, curStart + 1, i, sec, some "markdown", .doc,
                        some curHeading⟩]
          else chunks
        else chunks
      mdLoop path lines rest chunks2 i (headingText line)
    else mdLoop path lines rest chunks curStart curHeading

/-- chunk_markdown: chunk by ATX headings; a heading-free file with visible
content becomes a single chunk carrying the original content verbatim. -/
def chunkMarkdown (content : Text) (path : String) : List Chunk :=
  let lines := splitlines content
  if lines = [] then []
  else
    let chunks := mdLoop path lines lines.enum [] 0 (strT "(intro)")
    if chunks = [] ∧ pyStrip content ≠ [] then
      [⟨path, 1, lines.length, content, some "markdown", .doc, none⟩]
    else chunks

/-! Line-window chunker (src/probe/chunking/text.py: chunk_lines). -/

/-- The while loop of chunk_lines: windows of chunkSize lines starting at i,
stepping by chunkSize minus overlap.  Fuel-based; lines.length units of fuel
suffice whenever overlap < chunkSize, which holds at the call sites. -/
def clLoop (path : String) (kind : ChunkKind) (lines : List Text)
    (chunkSize overlap : Nat) : Nat → Nat → List Chunk
  | 0, _ => []
  | fuel + 1, i =>
    let e := min (i + chunkSize) lines.length
    let c : Chunk := ⟨path, i + 1, e, intercalateNl (pySlice lines i e), none, kind, none⟩
    if lines.length ≤ e then [c]
    else c :: clLoop path kind lines chunkSize overlap fuel (e - overlap)

/-- chunk_lines: a file of at most chunkSize lines is one chunk carrying the
original content verbatim; otherwise overlapping line windows. -/
def chunkLines (content : Text) (path : String) (chunkSize overlap : Nat)
    (kind : ChunkKind) : List Chunk :=
  let lines := splitlines content
  if lines = [] then []
  else if lines.length ≤ chunkSize then
    [⟨path, 1, lines.length, content, none, kind, none⟩]
  else clLoop path kind lines chunkSize overlap lines.length 0

/-- Default window parameters of src/probe/chunking/text.py. -/
def DEFAULT_CHUNK_LINES : Nat := 150

def DEFAULT_OVERLAP_LINES : Nat := 30

/-! Path suffix and kind detection (src/probe/chunking: detect_kind), needed
by the chunk_file dispatch. -/

/-- The final path component (Python Path name). -/
def pathName (p : String) : Text :=
  ((p.data.reverse.takeWhile (fun c => c ≠ '/'))).reverse

/-- The extension of the final component including the dot, lowercased
(Python path.suffix.lower()): empty when the name has no dot past its first
character or ends in a dot. -/
def lastDotIdx (n : Text) : Option Nat :=
  (n.reverse.findIdx? (fun c => c = '.')).map (fun j => n.length - 1 - j)

/-- The extension of the final component including the dot, lowercased
(Python path.suffix.lower()): nonempty exactly when the last dot of the name
is neither its first nor its last character. -/
def pathSuffixLower (p : String) : Text :=
  let n := pathName p
  match lastDotIdx n with
  | none => []
  | some i => if 0 < i ∧ i + 1 < n.length then (n.drop i).map Char.toLower else []

/-- detect_kind of src/probe/chunking: documentation and configuration
suffixes and well-known file names, otherwise code. -/
def detectKind (p : String) : ChunkKind :=
  let suffix := pathSuffixLower p
  let nameL := (pathName p).map Char.toLower
  if suffix = strT ".md" ∨ suffix = strT ".rst" ∨ suffix = strT ".txt" ∨
     suffix = strT ".adoc" then .doc
  else if suffix = strT ".json" ∨ suffix = strT ".yaml" ∨ suffix = strT ".yml" ∨
          suffix = strT ".toml" ∨ suffix = strT ".ini" ∨ suffix = strT ".cfg" ∨
          suffix = strT ".conf" then .config
  else if nameL = strT "dockerfile" ∨ nameL = strT "makefile" ∨
          nameL = strT ".gitignore" ∨ nameL = strT ".env.example" then .config
  else .code

/-! AST-aware chunking (src/probe/chunking/tree_sitter.py).  The tree-sitter
library itself is external: a parse tree, when one is obtained, enters the
model as data, and the walking and extraction logic of the source is
embedded over it. -/

mutual
/-- A tree-sitter syntax node: type name, zero-indexed start and end rows,
the source text of the span, and the child nodes, named and anonymous, in
the order the children property of the library yields them. -/
inductive TSNode where
  | node (ntype : String) (startRow endRow : Nat) (text : Text) (children : TSForest)
/-- A sibling list of syntax nodes. -/
inductive TSForest where
  | nil
  | cons (head : TSNode) (tail : TSForest)
end

def TSForest.toList : TSForest → List TSNode
  | .nil => []
  | .cons n rest => n :: rest.toList

def TSForest.ofList : List TSNode → TSForest
  | [] => .nil
  | n :: rest => .cons n (ofList rest)

/-- The children property of a node, as a list. -/
def TSNode.children : TSNode → List TSNode
  | .node _ _ _ _ cs => cs.toList

def TSNode.ntype : TSNode → String
  | .node t _ _ _ _ => t

def TSNode.startRow : TSNode → Nat
  | .node _ s _ _ _ => s

def TSNode.endRow : TSNode → Nat
  | .node _ _ e _ _ => e

def TSNode.text : TSNode → Text
  | .node _ _ _ x _ => x

mutual
/-- walk_tree: yield the node itself, then walk every child, in pre-order. -/
def walkTree : TSNode → List TSNode
  | .node t s e x cs => .node t s e x cs :: walkForest cs
/-- walk_tree over a sibling list. -/
def walkForest : TSForest → List TSNode
  | .nil => []
  | .cons n rest => walkTree n ++ walkForest rest
end

/-- The languages of the tree-sitter language pack, as the source lists
them. -/
def SUPPORTED_LANGUAGES : List String :=
  ["python", "javascript", "typescript", "tsx", "jsx", "rust", "go", "java",
   "c", "cpp", "c_sharp", "ruby", "php", "swift", "kotlin", "scala", "lua",
   "bash", "r", "sql", "html", "css", "scss", "vue", "svelte", "zig", "nim",
   "elixir", "erlang", "haskell", "ocaml", "clojure", "commonlisp", "elisp"]

/-- The extension table of detect_language. -/
def extMap : List (String × String) :=
  [(".py", "python"), (".js", "javascript"), (".ts", "typescript"),
   (".tsx", "tsx"), (".jsx", "jsx"), (".rs", "rust"), (".go", "go"),
   (".java", "java"), (".c", "c"), (".cpp", "cpp"), (".h", "c"),
   (".hpp", "cpp"), (".cs", "c_sharp"), (".rb", "ruby"), (".php", "php"),
   (".swift", "swift"), (".kt", "kotlin"), (".scala", "scala"),
   (".lua", "lua"), (".sh", "bash"), (".bash", "bash"), (".zsh", "bash"),
   (".r", "r"), (".sql", "sql"), (".html", "html"), (".css", "css"),
   (".scss", "scss"), (".vue", "vue"), (".svelte", "svelte"),
   (".zig", "zig"), (".nim", "nim"), (".ex", "elixir"), (".exs", "elixir"),
   (".erl", "erlang"), (".hs", "haskell"), (".ml", "ocaml"),
   (".clj", "clojure"), (".lisp", "commonlisp"), (".el", "elisp")]

/-- detect_language: the language of the lowercased path suffix, if any. -/
def detectLanguage (p : String) : Option String :=
  (extMap.find? (fun kv => strT kv.1 = pathSuffixLower p)).map (fun kv => kv.2)

/-- The semantic node types of SEMANTIC_NODES by language, with the empty
default of the dict get. -/
def semanticNodes (language : String) : List String :=
  if language = "python" then
    ["function_definition", "class_definition", "decorated_definition"]
  else if language = "javascript" ∨ language = "typescript" ∨ language = "tsx" then
    ["function_declaration", "class_declaration", "arrow_function",
     "method_definition"]
  else if language = "rust" then
    ["function_item", "impl_item", "struct_item", "enum_item", "trait_item"]
  else if language = "go" then
    ["function_declaration", "method_declaration", "type_declaration"]
  else if language = "java" then
    ["method_declaration", "class_declaration", "interface_declaration"]
  else if language = "c" then ["function_definition", "struct_specifier"]
  else if language = "cpp" then
    ["function_definition", "class_specifier", "struct_specifier"]
  else []

/-- find_header_end: scan the root children tracking the line after the
last import or use declaration, a nearby comment extending the header, and
stop at the first other node. -/
def findHeaderEnd : List TSNode → Nat → Nat
  | [], lastHeaderLine => lastHeaderLine
  | child :: rest, lastHeaderLine =>
    if ["import_statement", "import_from_statement", "use_declaration",
        "include"].contains child.ntype then
      findHeaderEnd rest (child.endRow + 1)
    else if ["comment", "line_comment", "block_comment"].contains child.ntype then
      findHeaderEnd rest
        (if child.startRow ≤ lastHeaderLine + 2 then child.endRow + 1
         else lastHeaderLine)
    else lastHeaderLine

/-- extract_symbol_name: the text of the first identifier-like child, when
one exists. -/
def extractSymbolName (nd : TSNode) (language : String) : Option Text :=
  (nd.children.find? (fun ch =>
    ch.ntype = "identifier" ∨ ch.ntype = "name" ∨
    ch.ntype = "property_identifier")).map (fun ch => ch.text)

/-- The window loop of split_large_chunk: 200-line windows with a 30-line
overlap, line numbers offset into the enclosing chunk.  Fuel-based like the
chunk_lines loop; lines.length units suffice. -/
def slcLoop (path language : String) (startLine : Nat) (symbol : Option Text)
    (lines : List Text) : Nat → Nat → List Chunk
  | 0, _ => []
  | fuel + 1, i =>
    let e := min (i + 200) lines.length
    let c : Chunk := ⟨path, startLine + i, startLine + e - 1,
      intercalateNl (pySlice lines i e), some language, .code,
      symbol.map (fun s => s ++ strT "[part]")⟩
    if lines.length ≤ e then [c]
    else c :: slcLoop path language startLine symbol lines fuel (e - 30)

/-- split_large_chunk: cut an oversized semantic chunk into overlapping
windows. -/
def splitLargeChunk (content : Text) (path language : String)
    (startLine : Nat) (symbol : Option Text) : List Chunk :=
  let lines := splitlines content
  slcLoop path language startLine symbol lines lines.length 0

/-- chunk_with_tree_sitter.  The import of the language pack, the parser
lookup and the parse itself are external; ts is their combined outcome,
none when the pack is missing or the parser raises, some root for a parse
of the content.  From a parse: a header chunk over the leading imports when
visibly nonempty, then one chunk per semantic node of the walk, nodes
beyond 250 lines split into windows. -/
def chunkWithTreeSitter (ts : Option TSNode) (content : Text) (path : String)
    (language : String) : List Chunk :=
  match ts with
  | none => []
  | some root =>
    let lines := splitlines content
    if lines = [] then []
    else
      let semanticTypes := semanticNodes language
      let headerEnd := findHeaderEnd root.children 0
      let headerChunks :=
        if 0 < headerEnd then
          let headerContent := intercalateNl (pySlice lines 0 headerEnd)
          if 0 < (pyStrip headerContent).length then
            [⟨path, 1, headerEnd, headerContent, some language, .code,
              some (strT "(header)")⟩]
          else []
        else []
      let chunks := headerChunks ++ (walkTree root).flatMap (fun n =>
        if semanticTypes.contains n.ntype then
          let startLine := n.startRow + 1
          let endLine := n.endRow + 1
          let symbol := extractSymbolName n language
          let nodeLines := pySlice lines (startLine - 1) endLine
          let nodeContent := intercalateNl nodeLines
          if 250 < nodeLines.length then
            splitLargeChunk nodeContent path language startLine symbol
          else
            [⟨path, startLine, endLine, nodeContent, some language, .code,
              symbol⟩]
        else [])
      if chunks = [] then [] else chunks

/-- chunk_file of src/probe/chunking: the tree-sitter strategy for files of
a supported language when it yields chunks, heading-based chunking for
Markdown documentation, and line windows otherwise.  ts is the external
parse outcome handed to chunk_with_tree_sitter. -/
def chunkFile (ts : Option TSNode) (content : Text) (path : String) : List Chunk :=
  let language := detectLanguage path
  let kind := detectKind path
  let tsChunks :=
    match language with
    | some lang =>
      if SUPPORTED_LANGUAGES.contains lang then chunkWithTreeSitter ts content path lang
      else []
    | none => []
  if tsChunks ≠ [] then tsChunks
  else if kind = .doc ∧ pathSuffixLower path = strT ".md" then chunkMarkdown content path
  else chunkLines content path DEFAULT_CHUNK_LINES DEFAULT_OVERLAP_LINES kind

end Probe


namespace Probe

/-! Identifier derivation (src/probe/indexing.py). -/

/-- compute_chunk_hash: truncated SHA-256 hex of the UTF-8 content. -/
def computeChunkHash (content : Text) : String :=
  (Hash.sha256hex (utf8Encode content)).take 16

/-- compute_file_hash: full SHA-256 hex of the file bytes. -/
def computeFileHash (bytes : List Nat) : String := Hash.sha256hex bytes

/-- The key string of compute_point_id: workspace id, file path, start line
and end line joined by colons, with the workspace UUID in its canonical
hyphenated form and the line numbers in decimal. -/
def pointIdKey (wsId : List Nat) (filePath : String) (startLine endLine : Nat) : String :=
  uuidToString wsId ++ ":" ++ filePath ++ ":" ++ toString startLine ++ ":" ++ toString endLine

/-- compute_point_id: the version-5 UUID of the key under NAMESPACE. -/
def computePointId (wsId : List Nat) (filePath : String) (startLine endLine : Nat) :
    List Nat :=
  uuid5 NAMESPACE (utf8EncodeStr (pointIdKey wsId filePath startLine endLine))

/-! Catalog state (src/probe/storage/manifest.py).  The files table maps a
path to its record; the chunks table is keyed by path, start line and end
line.  The wall-clock column last_indexed_at is not modelled; no claim
mentions it. -/

structure FileRecord where
  mtime : Int
  size : Nat
  fileHash : String
  lastError : Option String
deriving DecidableEq

structure ChunkRow where
  filePath : String
  startLine : Nat
  endLine : Nat
  chunkHash : String
  pointId : String
  chunkIdx : Nat
deriving DecidableEq

structure Catalog where
  files : List (String × FileRecord)
  chunks : List ChunkRow
deriving DecidableEq

namespace Catalog

/-- get_file. -/
def getFile (cat : Catalog) (p : String) : Option FileRecord :=
  (cat.files.find? (fun kv => kv.1 = p)).map (fun kv => kv.2)

/-- upsert_file: update in place on conflict, else insert. -/
def upsertFile (cat : Catalog) (p : String) (mtime : Int) (size : Nat)
    (fileHash : String) (err : Option String) : Catalog :=
  if cat.files.any (fun kv => kv.1 = p) then
    { cat with
      files := cat.files.map
        (fun kv => if kv.1 = p then (p, ⟨mtime, size, fileHash, err⟩) else kv) }
  else { cat with files := cat.files ++ [(p, ⟨mtime, size, fileHash, err⟩)] }

/-- delete_file_chunks: remove the chunk rows of one file, leaving its
file record. -/
def deleteFileChunks (cat : Catalog) (p : String) : Catalog :=
  { cat with chunks := cat.chunks.filter (fun r => ¬ r.filePath = p) }

/-- One upsert of upsert_chunks: by the primary key of path, start line and
end line; update in place on conflict, else insert. -/
def upsertChunkRow (cat : Catalog) (row : ChunkRow) : Catalog :=
  if cat.chunks.any (fun r =>
      r.filePath = row.filePath ∧ r.startLine = row.startLine ∧ r.endLine = row.endLine) then
    { cat with chunks := cat.chunks.map (fun r =>
        if r.filePath = row.filePath ∧ r.startLine = row.startLine ∧ r.endLine = row.endLine
        then row else r) }
  else { cat with chunks := cat.chunks ++ [row] }

/-- upsert_chunks over a row list, in order. -/
def upsertChunks (cat : Catalog) (rows : List ChunkRow) : Catalog :=
  rows.foldl upsertChunkRow cat

/-- The chunk rows of one file, in table order. -/
def chunksFor (cat : Catalog) (p : String) : List ChunkRow :=
  cat.chunks.filter (fun r => r.filePath = p)

end Catalog

/-! Vector store state (src/probe/storage/qdrant.py).  A point carries the
payload fields the claims mention; dense and sparse vectors are opaque. -/

structure QPoint where
  pointId : String
  repoId : String
  workspaceId : String
  filePath : String
  fileHash : String
  chunkHash : String
  startLine : Nat
  endLine : Nat
deriving DecidableEq

structure QdrantState where
  points : List QPoint
deriving DecidableEq

/-- upsert_chunk at the store: replace the point with the same id, else add. -/
def qUpsert (q : QdrantState) (pt : QPoint) : QdrantState :=
  if q.points.any (fun p => p.pointId = pt.pointId) then
    ⟨q.points.map (fun p => if p.pointId = pt.pointId then pt else p)⟩
  else ⟨q.points ++ [pt]⟩

/-- delete_by_file: drop every point of the workspace and file. -/
def qDeleteByFile (q : QdrantState) (ws path : String) : QdrantState :=
  ⟨q.points.filter (fun p => ¬ (p.workspaceId = ws ∧ p.filePath = path))⟩

/-! The single-file indexing operation (src/probe/indexing.py: index_file). -/

/-- The file as seen on disk at the call: the stat pair and the raw bytes. -/
structure DiskFile where
  mtime : Int
  size : Nat
  bytes : List Nat
deriving DecidableEq

/-- External effects of one index_file call.  embedCount stands for the
embedding service: some n means a batch of n vectors came back (the vectors
themselves are opaque; the strict zip in the source only observes the
count), none means the request failed.  qdrantUpsertOk gives per-chunk
success of the vector-store upsert; false means the call raised.  tsParse
is the outcome of the external tree-sitter import, parser lookup and parse
of the file content, handed through chunk_file to chunk_with_tree_sitter. -/
structure Oracle where
  embedCount : List Text → Option Nat
  qdrantUpsertOk : Nat → Bool
  tsParse : Option TSNode

structure SysState where
  catalog : Catalog
  qdrant : QdrantState
deriving DecidableEq

/-- Outcome of index_file: some n is a normal return of n chunks indexed,
none is a raised exception propagating to the caller; hashComputed records
whether compute_file_hash ran (the fast-skip path returns before it). -/
structure IndexOutcome where
  result : Option Nat
  state : SysState
  hashComputed : Bool
deriving DecidableEq

/-- The per-chunk loop of index_file: for each chunk, derive the point id
and chunk hash, upsert the point, and accumulate the catalog row.  A failed
upsert raises, leaving the points upserted so far in place (none in the row
list sense). -/
def qUpsertLoop (wsId : List Nat) (repoId fileHash relPath : String) (ok : Nat → Bool) :
    QdrantState → Nat → List Chunk → QdrantState × Option (List ChunkRow)
  | q, _, [] => (q, some [])
  | q, idx, c :: rest =>
    let pid := uuidToString (computePointId wsId relPath c.startLine c.endLine)
    let ch := computeChunkHash c.content
    if ok idx then
      let q2 := qUpsert q
        ⟨pid, repoId, uuidToString wsId, relPath, fileHash, ch, c.startLine, c.endLine⟩
      match qUpsertLoop wsId repoId fileHash relPath ok q2 (idx + 1) rest with
      | (qf, some rows) => (qf, some (⟨relPath, c.startLine, c.endLine, ch, pid, idx⟩ :: rows))
      | (qf, none) => (qf, none)
    else (q, none)

/-- The fast-skip test of index_file: a record exists and its stat pair
equals the one on disk. -/
def recordMatches (existing : Option FileRecord) (disk : DiskFile) : Bool :=
  match existing with
  | some r => r.mtime = disk.mtime && r.size = disk.size
  | none => false

/-- index_file.  The workspace id is passed as its 16 bytes; relPath is the
path relative to the project root.  Mirrors the source order: fast-skip
check, file hash, erase phase (vector store then catalog), UTF-8 decode
with universal newlines, chunking, embedding, per-chunk upserts, then the
file record and chunk rows. -/
def indexFile (relPath repoId : String) (wsId : List Nat) (disk : DiskFile)
    (oracle : Oracle) (st : SysState) : IndexOutcome :=
  let existing := st.catalog.getFile relPath
  if recordMatches existing disk then
    ⟨some 0, st, false⟩
  else
    let fileHash := computeFileHash disk.bytes
    let ws := uuidToString wsId
    let q1 := qDeleteByFile st.qdrant ws relPath
    let cat1 := st.catalog.deleteFileChunks relPath
    match (utf8Decode disk.bytes).map univNl with
    | none => ⟨some 0, ⟨cat1, q1⟩, true⟩
    | some content =>
      let chunks := chunkFile oracle.tsParse content relPath
      if chunks = [] then ⟨some 0, ⟨cat1, q1⟩, true⟩
      else
        match oracle.embedCount (chunks.map (fun c => c.content)) with
        | none => ⟨none, ⟨cat1, q1⟩, true⟩
        | some n =>
          if n ≠ chunks.length then ⟨none, ⟨cat1, q1⟩, true⟩
          else
            match qUpsertLoop wsId repoId fileHash relPath oracle.qdrantUpsertOk q1 0 chunks with
            | (qf, none) => ⟨none, ⟨cat1, qf⟩, true⟩
            | (qf, some rows) =>
              let cat2 := cat1.upsertFile relPath disk.mtime disk.size fileHash none
              let cat3 := cat2.upsertChunks rows
              ⟨some chunks.length, ⟨cat3, qf⟩, true⟩

end Probe


namespace Probe

/-! Retrieval (src/probe/retrieval.py). -/

/-- The filesystem as the retriever sees it: bytes by absolute path, none
for a missing file. -/
structure FileSys where
  files : String → Option (List Nat)

/-- Path join (the pathlib slash operator, for relative right operands). -/
def joinPath (root p : String) : String := root ++ "/" ++ p

/-- Python read_text: read bytes, strict UTF-8 decode, universal newlines.
none models FileNotFoundError as well as UnicodeDecodeError. -/
def readText (fs : FileSys) (p : String) : Option Text :=
  ((fs.files p).bind utf8Decode).map univNl

/-- generate_snippet: read the file, clamp the 1-indexed inclusive line
range, compare the recomputed truncated hash against the catalog hash when
one is present, and truncate the display to maxLines lines plus a sentinel.
Returns the snippet and the stale flag. -/
def generateSnippet (fs : FileSys) (filePath : String) (startLine endLine : Nat)
    (projectRoot : String) (chunkHash : Option String) (maxLines : Nat) : Text × Bool :=
  let fullPath := joinPath projectRoot filePath
  match readText fs fullPath with
  | none => (strT "(file not found or unreadable)", true)
  | some txt =>
    let lines := splitlines txt
    let startIdx := startLine - 1
    let endIdx := min lines.length endLine
    let selected := pySlice lines startIdx endIdx
    let stale :=
      match chunkHash with
      | some h => if h ≠ "" then decide (computeChunkHash (intercalateNl selected) ≠ h) else false
      | none => false
    let selected2 :=
      if maxLines < selected.length then selected.take maxLines ++ [strT "..."] else selected
    (intercalateNl selected2, stale)

/-- A hybrid_search hit, with the payload fields search reads.  Scores are
opaque rank values (the model uses Int where the source has floats; no claim
depends on score arithmetic). -/
structure Candidate where
  pointId : String
  score : Int
  filePath : String
  chunkHash : Option String
  startLine : Nat
  endLine : Nat
deriving DecidableEq

/-- A search result as assembled in step 5 of search (the signals map is
not modelled; no claim mentions it). -/
structure SearchResultR where
  repoId : String
  workspaceId : String
  path : String
  startLine : Nat
  endLine : Nat
  snippet : Text
  score : Int
  stale : Bool
  source : String
deriving DecidableEq

def effectiveMode (mode : String) (rerankerConfigured : Bool) : String :=
  if mode = "auto" then (if rerankerConfigured then "quality" else "fast") else mode

/-- search, from candidate list to result list: snippet materialization for
every candidate, optional rerank (the reranker response is an oracle; none
models a raised error, handled by falling back to fusion order), truncation
to topK, and result construction.  Query embedding and hybrid_search are
upstream of the candidates argument. -/
def search (fs : FileSys) (projectRoot repoId ws : String)
    (candidates : List Candidate) (rerankOut : Option (List (Nat × Int)))
    (rerankerConfigured : Bool) (mode : String) (topK : Nat) : List SearchResultR :=
  let withSnips := candidates.map (fun c =>
    (c, generateSnippet fs c.filePath c.startLine c.endLine projectRoot c.chunkHash 15))
  let chosen :=
    if effectiveMode mode rerankerConfigured = "quality" ∧ 0 < withSnips.length then
      match rerankOut with
      | some ranked =>
        let dflt := ((⟨"", 0, "", none, 0, 0⟩ : Candidate), (strT "", false))
        let reordered := ranked.map (fun p => (withSnips.getD p.1 dflt, p.2))
        let sorted := reordered.mergeSort (fun a b => b.2 ≤ a.2)
        (sorted.take topK).map (fun p => p.1)
      | none => withSnips.take topK
    else withSnips.take topK
  chosen.map (fun p =>
    ⟨repoId, ws, p.1.filePath, p.1.startLine, p.1.endLine, p.2.1, p.1.score, p.2.2,
     p.1.filePath ++ "#L" ++ toString p.1.startLine ++ "-L" ++ toString p.1.endLine⟩)

/-! The open_file tool handler (src/probe/server.py: handle_open_file). -/

/-- The filesystem as the server sees it: non-strict and strict path
resolution (symlinks resolved by the host), bytes and mtime by resolved
path.  resolveStrict returning none models FileNotFoundError. -/
structure OpenFS where
  resolveNS : String → String
  resolveStrict : String → Option String
  bytes : String → Option (List Nat)
  mtime : String → Int

inductive OpenFileResult
  | escapeError (p : String)
  | notFoundError (p : String)
  | notUtf8Error (p : String)
  | readError
  | payload (content : Text) (fileHash : String) (mtime : Int)
deriving DecidableEq

/-- Python slice index normalization: negative indexes count from the end,
and both ends clamp to the list length. -/
def pyNormIdx (len : Nat) (i : Int) : Nat :=
  if i < 0 then ((len : Int) + i).toNat else min len i.toNat

/-- handle_open_file.  Returns the result and whether the file bytes were
read.  The sandbox check is the one in the source: a plain string prefix
test of the resolved path against the project root. -/
def handleOpenFile (fs : OpenFS) (projectRoot pathStr : String)
    (startLine endLine : Int) : OpenFileResult × Bool :=
  let requested := fs.resolveNS (joinPath projectRoot pathStr)
  match fs.resolveStrict requested with
  | none => (.notFoundError pathStr, false)
  | some realPath =>
    if ¬ (projectRoot.data.isPrefixOf realPath.data) then (.escapeError pathStr, false)
    else
      match fs.bytes realPath with
      | none => (.readError, true)
      | some fileBytes =>
        let fileHash := Hash.sha256hex fileBytes
        let mt := fs.mtime realPath
        match utf8Decode fileBytes with
        | none => (.notUtf8Error pathStr, true)
        | some raw =>
          let lines := splitlines raw
          let startIdx := pyNormIdx lines.length (max 0 (startLine - 1))
          let endIdx := pyNormIdx lines.length (min (lines.length : Int) endLine)
          let selected := pySlice lines startIdx endIdx
          let numbered := selected.enum.map
            (fun p => strT (toString ((p.1 : Int) + startLine) ++ ": ") ++ p.2)
          (.payload (intercalateNl numbered) fileHash mt, true)

/-- The sandbox property as the specification states it: the canonical path
is the root itself or lies strictly below it. -/
def isSubpathOf (root p : String) : Bool :=
  p = root || (root ++ "/").data.isPrefixOf p.data

end Probe


namespace Probe

/-! General lemmas about the embedded operations. -/

theorem deleteFileChunks_files (cat : Catalog) (p : String) :
    (cat.deleteFileChunks p).files = cat.files := rfl

theorem getFile_congr (cat1 cat2 : Catalog) (p : String)
    (h : cat1.files = cat2.files) : cat1.getFile p = cat2.getFile p := by
  simp [Catalog.getFile, h]

/-- Every branch of index_file past the fast skip reports the hash as
computed. -/
theorem indexFile_hashComputed (relPath repoId : String) (wsId : List Nat)
    (disk : DiskFile) (oracle : Oracle) (st : SysState)
    (hskip : recordMatches (st.catalog.getFile relPath) disk = false) :
    (indexFile relPath repoId wsId disk oracle st).hashComputed = true := by
  simp only [indexFile, hskip, Bool.false_eq_true, if_false]
  rcases hdec : (utf8Decode disk.bytes).map univNl with _ | content
  · simp [hdec]
  · simp only [hdec]
    split
    · rfl
    · rcases hemb : oracle.embedCount _ with _ | n
      · simp [hemb]
      · simp only [hemb]
        split
        · rfl
        · rcases hloop : qUpsertLoop wsId repoId (computeFileHash disk.bytes) relPath
              oracle.qdrantUpsertOk (qDeleteByFile st.qdrant (uuidToString wsId) relPath)
              0 (chunkFile oracle.tsParse content relPath) with ⟨qf, rows⟩
          rcases rows with _ | rows <;> simp [hloop]

/-- A failing index_file call never fast-skipped. -/
theorem indexFile_error_not_skip (relPath repoId : String) (wsId : List Nat)
    (disk : DiskFile) (oracle : Oracle) (st : SysState)
    (hfail : (indexFile relPath repoId wsId disk oracle st).result = none) :
    recordMatches (st.catalog.getFile relPath) disk = false := by
  by_contra hc
  rw [Bool.not_eq_false] at hc
  simp only [indexFile, hc] at hfail
  simp at hfail

/-- A failing index_file call leaves the files table untouched: the file
record upsert is the last step, after embedding and all vector-store
upserts. -/
theorem indexFile_error_files (relPath repoId : String) (wsId : List Nat)
    (disk : DiskFile) (oracle : Oracle) (st : SysState)
    (hfail : (indexFile relPath repoId wsId disk oracle st).result = none) :
    (indexFile relPath repoId wsId disk oracle st).state.catalog.files = st.catalog.files := by
  have hskip := indexFile_error_not_skip relPath repoId wsId disk oracle st hfail
  simp only [indexFile, hskip, Bool.false_eq_true, if_false] at hfail ⊢
  rcases hdec : (utf8Decode disk.bytes).map univNl with _ | content <;>
    simp only [hdec] at hfail ⊢
  · rfl
  · split
    · rename_i hch
      rw [if_pos hch] at hfail
      simp at hfail
    · rename_i hch
      rw [if_neg hch] at hfail
      rcases hemb : oracle.embedCount (List.map (fun c => c.content) (chunkFile oracle.tsParse content relPath))
          with _ | n <;> simp only [hemb] at hfail ⊢
      · rfl
      · split
        · rename_i hn
          rw [if_pos hn] at hfail
          rfl
        · rename_i hn
          rw [if_neg hn] at hfail
          rcases hloop : qUpsertLoop wsId repoId (computeFileHash disk.bytes) relPath
              oracle.qdrantUpsertOk (qDeleteByFile st.qdrant (uuidToString wsId) relPath)
              0 (chunkFile oracle.tsParse content relPath) with ⟨qf, rows⟩
          simp only [hloop] at hfail ⊢
          rcases rows with _ | rows
          · rfl
          · simp at hfail

/-! Claim theorems. -/

/-- C6: for every file with an existing FileRecord whose stat pair matches
the on-disk mtime and size, index_file returns 0 immediately: the fast-skip
branch computes no file hash and mutates neither the catalog nor the vector
store, so a second call on an unchanged just-indexed file indexes 0 chunks. -/
theorem claim6_fast_skip (relPath repoId : String) (wsId : List Nat)
    (disk : DiskFile) (oracle : Oracle) (st : SysState) (r : FileRecord)
    (hrec : st.catalog.getFile relPath = some r)
    (hm : r.mtime = disk.mtime) (hs : r.size = disk.size) :
    indexFile relPath repoId wsId disk oracle st = ⟨some 0, st, false⟩ := by
  have hmatch : recordMatches (st.catalog.getFile relPath) disk = true := by
    simp [recordMatches, hrec, hm, hs]
  simp [indexFile, hmatch]

/-- Witness: a concrete catalog whose record for the file equals the stat
pair on disk; the call returns 0 with the state unchanged, no hash computed. -/
theorem claim6_fast_skip_witness :
    (⟨⟨[("f.txt", ⟨1, 1, "h", none⟩)], []⟩, ⟨[]⟩⟩ : SysState).catalog.getFile "f.txt" =
        some ⟨1, 1, "h", none⟩ ∧
      indexFile "f.txt" "r" (List.replicate 16 0) ⟨1, 1, [97]⟩
          ⟨fun _ => none, fun _ => true, none⟩ ⟨⟨[("f.txt", ⟨1, 1, "h", none⟩)], []⟩, ⟨[]⟩⟩ =
        ⟨some 0, ⟨⟨[("f.txt", ⟨1, 1, "h", none⟩)], []⟩, ⟨[]⟩⟩, false⟩ :=
  ⟨by decide, claim6_fast_skip "f.txt" "r" (List.replicate 16 0) ⟨1, 1, [97]⟩
      ⟨fun _ => none, fun _ => true, none⟩ _ ⟨1, 1, "h", none⟩ (by decide) rfl rfl⟩

/-- The point id as the specification words it: the UUIDv5, under the fixed
namespace, of the workspace id, file path, start line and end line joined
by colons. -/
def specPointId (wsId : List Nat) (filePath : String) (startLine endLine : Nat) :
    List Nat :=
  uuid5 NAMESPACE (utf8EncodeStr
    (uuidToString wsId ++ ":" ++ filePath ++ ":" ++
     toString startLine ++ ":" ++ toString endLine))

/-- C7: compute_point_id returns exactly the UUIDv5 of the position key
under the fixed namespace.  The function takes no content argument, so the
id is a deterministic function of the position alone, identical across
runs and processes. -/
theorem claim7_point_id (wsId : List Nat) (filePath : String) (s e : Nat) :
    computePointId wsId filePath s e = specPointId wsId filePath s e := rfl

/-- Witness: the concrete id of a concrete position, stated against the
spec-side definition. -/
theorem claim7_point_id_witness :
    computePointId (List.replicate 16 0) "f.txt" 1 1 =
      specPointId (List.replicate 16 0) "f.txt" 1 1 :=
  claim7_point_id (List.replicate 16 0) "f.txt" 1 1

/-- C2: if index_file fails after the erase phase (embedding failure,
length-mismatched embedding response, or a vector-store upsert failure),
the file record is untouched, so a repeat call on the unchanged file does
not fast-skip: the stat comparison fails again and the call proceeds past
it (computing the file hash) rather than returning 0 at the skip. -/
theorem claim2_failure_retry (relPath repoId : String) (wsId : List Nat)
    (disk : DiskFile) (oracle oracle2 : Oracle) (st : SysState)
    (hfail : (indexFile relPath repoId wsId disk oracle st).result = none) :
    recordMatches
        (((indexFile relPath repoId wsId disk oracle st).state.catalog).getFile relPath)
        disk = false ∧
      (indexFile relPath repoId wsId disk oracle2
          (indexFile relPath repoId wsId disk oracle st).state).hashComputed = true := by
  have hfiles := indexFile_error_files relPath repoId wsId disk oracle st hfail
  have hskip := indexFile_error_not_skip relPath repoId wsId disk oracle st hfail
  have hget := getFile_congr
    (indexFile relPath repoId wsId disk oracle st).state.catalog st.catalog relPath hfiles
  have hskip2 : recordMatches
      (((indexFile relPath repoId wsId disk oracle st).state.catalog).getFile relPath)
      disk = false := by rw [hget]; exact hskip
  exact ⟨hskip2, indexFile_hashComputed relPath repoId wsId disk oracle2 _ hskip2⟩

/-- Witness scenario for the retry behavior: an embedding failure on a
changed one-line file. -/
theorem claim2_failure_retry_witness :
    ((indexFile "f.txt" "r" (List.replicate 16 0) ⟨2, 1, [97]⟩
        ⟨fun _ => none, fun _ => true, none⟩
        ⟨⟨[("f.txt", ⟨1, 1, "h", none⟩)], []⟩, ⟨[]⟩⟩).result = none) ∧
      (indexFile "f.txt" "r" (List.replicate 16 0) ⟨2, 1, [97]⟩
          ⟨fun _ => none, fun _ => true, none⟩
          (indexFile "f.txt" "r" (List.replicate 16 0) ⟨2, 1, [97]⟩
              ⟨fun _ => none, fun _ => true, none⟩
              ⟨⟨[("f.txt", ⟨1, 1, "h", none⟩)], []⟩, ⟨[]⟩⟩).state).hashComputed = true :=
  ⟨by decide,
   (claim2_failure_retry "f.txt" "r" (List.replicate 16 0) ⟨2, 1, [97]⟩
      ⟨fun _ => none, fun _ => true, none⟩ ⟨fun _ => none, fun _ => true, none⟩
      ⟨⟨[("f.txt", ⟨1, 1, "h", none⟩)], []⟩, ⟨[]⟩⟩ (by decide)).2⟩

/-- Concrete inputs for the decode-failure claim: one catalog chunk row for
the file, a stale record, and bytes that are not valid UTF-8. -/
def c1State : SysState :=
  ⟨⟨[("f.txt", ⟨1, 1, "h", none⟩)], [⟨"f.txt", 1, 1, "abcd", "pid", 0⟩]⟩, ⟨[]⟩⟩

def c1Disk : DiskFile := ⟨2, 1, [255]⟩

def c1Oracle : Oracle := ⟨fun _ => none, fun _ => true, none⟩

/-- C1 counterexample: a file whose bytes are not valid UTF-8 and whose stat
pair differs from its FileRecord.  index_file returns 0, yet the catalog
after the call differs from the catalog before: the chunk row of the file
was erased by the erase phase, which runs before decoding. -/
theorem claim1_counterexample :
    utf8Decode c1Disk.bytes = none ∧
      recordMatches (c1State.catalog.getFile "f.txt") c1Disk = false ∧
      (indexFile "f.txt" "r" (List.replicate 16 0) c1Disk c1Oracle c1State).result = some 0 ∧
      (indexFile "f.txt" "r" (List.replicate 16 0) c1Disk c1Oracle c1State).state.catalog ≠
        c1State.catalog := by
  refine ⟨by decide, by decide, by decide, by decide⟩

/-- C1 amended: when decoding fails on a file whose stat pair differs from
its FileRecord, index_file returns 0 and leaves the files table untouched,
but the erase phase has already run: the chunk rows of the file are removed
from the catalog and its points from the vector store.  The catalog is
therefore unchanged only when the file had no chunk rows. -/
theorem claim1_amended (relPath repoId : String) (wsId : List Nat)
    (disk : DiskFile) (oracle : Oracle) (st : SysState)
    (hdec : utf8Decode disk.bytes = none)
    (hskip : recordMatches (st.catalog.getFile relPath) disk = false) :
    indexFile relPath repoId wsId disk oracle st =
      ⟨some 0,
       ⟨⟨st.catalog.files, st.catalog.chunks.filter (fun r => ¬ r.filePath = relPath)⟩,
        qDeleteByFile st.qdrant (uuidToString wsId) relPath⟩, true⟩ := by
  simp only [indexFile, hskip, Bool.false_eq_true, if_false]
  simp [hdec, Catalog.deleteFileChunks]

/-- Witness: the concrete decode-failure scenario, stepped through the
amended statement. -/
theorem claim1_amended_witness :
    utf8Decode c1Disk.bytes = none ∧
      indexFile "f.txt" "r" (List.replicate 16 0) c1Disk c1Oracle c1State =
        ⟨some 0,
         ⟨⟨c1State.catalog.files,
           c1State.catalog.chunks.filter (fun r => ¬ r.filePath = "f.txt")⟩,
          qDeleteByFile c1State.qdrant (uuidToString (List.replicate 16 0)) "f.txt"⟩,
         true⟩ :=
  ⟨by decide,
   claim1_amended "f.txt" "r" (List.replicate 16 0) c1Disk c1Oracle c1State
     (by decide) (by decide)⟩

end Probe


namespace Probe

/-- C10: when snippet materialization cannot read or decode the referenced
file, generate_snippet returns the placeholder snippet with stale true; and
in fast mode search emits exactly the first topK candidates, each with its
generate_snippet output, so a candidate with an unreadable file is neither
dropped nor does it fail the search. -/
theorem claim10_unreadable_snippet (fs : FileSys) (projectRoot repoId ws : String)
    (candidates : List Candidate) (rerankOut : Option (List (Nat × Int)))
    (cfg : Bool) (mode : String) (topK : Nat) (c : Candidate)
    (hmode : effectiveMode mode cfg = "fast")
    (hunread : readText fs (joinPath projectRoot c.filePath) = none) :
    generateSnippet fs c.filePath c.startLine c.endLine projectRoot c.chunkHash 15 =
        (strT "(file not found or unreadable)", true) ∧
      search fs projectRoot repoId ws candidates rerankOut cfg mode topK =
        (candidates.take topK).map (fun c2 =>
          let gs := generateSnippet fs c2.filePath c2.startLine c2.endLine projectRoot
            c2.chunkHash 15
          ⟨repoId, ws, c2.filePath, c2.startLine, c2.endLine, gs.1, c2.score, gs.2,
           c2.filePath ++ "#L" ++ toString c2.startLine ++ "-L" ++ toString c2.endLine⟩) := by
  constructor
  · simp [generateSnippet, hunread]
  · have hq : effectiveMode mode cfg ≠ "quality" := by rw [hmode]; decide
    simp [search, hq, List.map_take]
    rfl

/-- Witness: one candidate whose file is absent from the filesystem; fast
mode; the search output is that candidate with the placeholder snippet. -/
theorem claim10_unreadable_snippet_witness :
    effectiveMode "auto" false = "fast" ∧
      readText ⟨fun _ => none⟩ (joinPath "/p" "gone.txt") = none ∧
      search ⟨fun _ => none⟩ "/p" "r" "w" [⟨"pid", 5, "gone.txt", some "abcd", 1, 2⟩]
          none false "auto" 12 =
        [⟨"r", "w", "gone.txt", 1, 2, strT "(file not found or unreadable)", 5, true,
          "gone.txt#L1-L2"⟩] := by
  have h := (claim10_unreadable_snippet ⟨fun _ => none⟩ "/p" "r" "w"
    [⟨"pid", 5, "gone.txt", some "abcd", 1, 2⟩] none false "auto" 12
    ⟨"pid", 5, "gone.txt", some "abcd", 1, 2⟩ (by decide) rfl)
  refine ⟨by decide, rfl, ?_⟩
  rw [h.2]
  decide

/-- C4: for a readable file and a present nonempty catalog hash, snippet
materialization slices the 1-indexed inclusive clamped line range of the
current text, recomputes the truncated SHA-256 of exactly that slice, sets
stale true exactly when it differs from the catalog hash, and truncates the
display to 15 lines plus a sentinel when the slice is longer. -/
theorem claim4_snippet (fs : FileSys) (filePath projectRoot : String)
    (startLine endLine : Nat) (h : String) (txt : Text)
    (hread : readText fs (joinPath projectRoot filePath) = some txt)
    (hh : h ≠ "") :
    generateSnippet fs filePath startLine endLine projectRoot (some h) 15 =
        ((if 15 < (pySlice (splitlines txt) (startLine - 1)
              (min (splitlines txt).length endLine)).length then
            intercalateNl ((pySlice (splitlines txt) (startLine - 1)
              (min (splitlines txt).length endLine)).take 15 ++ [strT "..."])
          else
            intercalateNl (pySlice (splitlines txt) (startLine - 1)
              (min (splitlines txt).length endLine))),
         decide (computeChunkHash (intercalateNl (pySlice (splitlines txt) (startLine - 1)
           (min (splitlines txt).length endLine))) ≠ h)) ∧
      ((generateSnippet fs filePath startLine endLine projectRoot (some h) 15).2 = true ↔
        computeChunkHash (intercalateNl (pySlice (splitlines txt) (startLine - 1)
          (min (splitlines txt).length endLine))) ≠ h) := by
  constructor
  · simp only [generateSnippet, hread, hh, ne_eq, ite_not, apply_ite intercalateNl]
    simp [apply_ite intercalateNl]
  · simp [generateSnippet, hread, hh]

/-- Witness: a two-line file; the slice of line 1 matches the recorded
hash, so stale is false; editing the second line does not change this,
while a wrong recorded hash gives stale true. -/
theorem claim4_snippet_witness :
    readText ⟨fun p => if p = "/p/a.txt" then some [120, 10, 121] else none⟩
        (joinPath "/p" "a.txt") = some (strT "x\ny") ∧
      computeChunkHash (strT "x") ≠ "" ∧
      (generateSnippet ⟨fun p => if p = "/p/a.txt" then some [120, 10, 121] else none⟩
          "a.txt" 1 1 "/p" (some (computeChunkHash (strT "x"))) 15).2 = false ∧
      (generateSnippet ⟨fun p => if p = "/p/a.txt" then some [120, 10, 121] else none⟩
          "a.txt" 1 1 "/p" (some "0000000000000000") 15).2 = true := by
  refine ⟨by decide, by decide, ?_, ?_⟩
  · have h := claim4_snippet
      ⟨fun p => if p = "/p/a.txt" then some [120, 10, 121] else none⟩ "a.txt" "/p" 1 1
      (computeChunkHash (strT "x")) (strT "x\ny") (by decide) (by decide)
    rw [h.1]
    decide
  · have h := claim4_snippet
      ⟨fun p => if p = "/p/a.txt" then some [120, 10, 121] else none⟩ "a.txt" "/p" 1 1
      "0000000000000000" (strT "x\ny") (by decide) (by decide)
    rw [h.1]
    decide

/-- The filesystem of the sandbox counterexample: a link inside the project
resolves to a sibling directory whose name extends the project root as a
string; the target file holds the two bytes of hi. -/
def c3FS : OpenFS :=
  ⟨fun p => p,
   fun p => if p = "/home/u/proj/link.txt" then some "/home/u/proj-evil/secret.txt" else none,
   fun p => if p = "/home/u/proj-evil/secret.txt" then some [104, 105] else none,
   fun _ => 7⟩

/-- C3 (code defect): the canonical form of the requested path is not a
subpath of the project root, yet handle_open_file reads the file and
returns a full content payload instead of an error.  The sandbox test of
the source is a plain string prefix test on the resolved path, which a
sibling directory extending the root as a string passes. -/
theorem claim3_sandbox_bug :
    isSubpathOf "/home/u/proj" "/home/u/proj-evil/secret.txt" = false ∧
      c3FS.resolveStrict (c3FS.resolveNS (joinPath "/home/u/proj" "link.txt")) =
        some "/home/u/proj-evil/secret.txt" ∧
      handleOpenFile c3FS "/home/u/proj" "link.txt" 1 2 =
        (.payload (strT "1: hi") (Hash.sha256hex [104, 105]) 7, true) := by
  refine ⟨by decide, by decide, by decide⟩

end Probe


namespace Probe

/-! Lemmas about line splitting and joining. -/

theorem splitOnNl_ne_nil (cs : Text) : splitOnNl cs ≠ [] := by
  induction cs with
  | nil => simp [splitOnNl]
  | cons c rest ih =>
    simp only [splitOnNl]
    split
    · simp
    · rcases h : splitOnNl rest with _ | ⟨l, ls⟩
      · simp
      · simp

theorem intercalateNl_splitOnNl (cs : Text) : intercalateNl (splitOnNl cs) = cs := by
  induction cs with
  | nil => rfl
  | cons c rest ih =>
    simp only [splitOnNl]
    split
    · rename_i hc
      rcases h : splitOnNl rest with _ | ⟨l, ls⟩
      · exact absurd h (splitOnNl_ne_nil rest)
      · rw [h] at ih
        subst hc
        simp only [intercalateNl]
        rw [ih]
        rfl
    · rcases h : splitOnNl rest with _ | ⟨l, ls⟩
      · exact absurd h (splitOnNl_ne_nil rest)
      · rw [h] at ih
        rcases ls with _ | ⟨l2, ls2⟩
        · simp only [intercalateNl] at ih ⊢
          rw [ih]
        · simp only [intercalateNl] at ih ⊢
          rw [List.cons_append, ih]

theorem noNl_mem_splitOnNl (cs : Text) (l : Text) (hl : l ∈ splitOnNl cs) :
    '\n' ∉ l := by
  induction cs generalizing l with
  | nil =>
    simp [splitOnNl] at hl
    subst hl
    simp
  | cons c rest ih =>
    simp only [splitOnNl] at hl
    split at hl
    · rcases List.mem_cons.mp hl with hl2 | hl2
      · subst hl2; simp
      · exact ih l hl2
    · rename_i hc
      rcases h : splitOnNl rest with _ | ⟨x, xs⟩
      · exact absurd h (splitOnNl_ne_nil rest)
      · rw [h] at hl
        rcases List.mem_cons.mp hl with hl2 | hl2
        · subst hl2
          intro hmem
          rcases List.mem_cons.mp hmem with hm | hm
          · exact hc hm.symm
          · exact ih x (h ▸ List.mem_cons_self x xs) hm
        · exact ih l (h ▸ List.mem_cons_of_mem x hl2)

/-- Splitting distributes over a newline join of one part and the rest. -/
theorem splitOnNl_append_cons (u v : Text) :
    splitOnNl (u ++ '\n' :: v) = splitOnNl u ++ splitOnNl v := by
  induction u with
  | nil => simp [splitOnNl]
  | cons c rest ih =>
    by_cases hc : c = '\n'
    · subst hc
      simp [splitOnNl, ih]
    · simp only [List.cons_append, splitOnNl, if_neg hc, List.append_eq]
      rw [ih]
      rcases h : splitOnNl rest with _ | ⟨x, xs⟩
      · exact absurd h (splitOnNl_ne_nil rest)
      · simp

/-- A newline-free text splits to the single part holding it. -/
theorem splitOnNl_of_noNl (x : Text) (h : '\n' ∉ x) : splitOnNl x = [x] := by
  induction x with
  | nil => rfl
  | cons c rest ih =>
    have hc : ¬ c = '\n' := fun hcc => h (hcc ▸ List.mem_cons_self c rest)
    have hr : '\n' ∉ rest := fun hm => h (List.mem_cons_of_mem c hm)
    simp only [splitOnNl, if_neg hc, ih hr]

/-- Splitting inverts joining when no part holds a newline. -/
theorem splitOnNl_intercalateNl (ls : List Text) (hne : ls ≠ [])
    (hnl : ∀ l ∈ ls, '\n' ∉ l) : splitOnNl (intercalateNl ls) = ls := by
  induction ls with
  | nil => exact absurd rfl hne
  | cons x xs ih =>
    rcases xs with _ | ⟨y, ys⟩
    · exact splitOnNl_of_noNl x (hnl x (by simp))
    · have hx : '\n' ∉ x := hnl x (by simp)
      have hrest : ∀ l ∈ y :: ys, '\n' ∉ l := fun l hl => hnl l (List.mem_cons_of_mem x hl)
      calc splitOnNl (intercalateNl (x :: y :: ys))
          = splitOnNl (x ++ '\n' :: intercalateNl (y :: ys)) := rfl
        _ = splitOnNl x ++ splitOnNl (intercalateNl (y :: ys)) := splitOnNl_append_cons _ _
        _ = [x] ++ (y :: ys) := by rw [splitOnNl_of_noNl x hx, ih (by simp) hrest]
        _ = x :: y :: ys := rfl

/-- Unfolding of splitlines at a character other than carriage return. -/
theorem splitlines_cons_of_ne_cr (c : Char) (rest : Text) (hc : ¬ c = '\r') :
    splitlines (c :: rest) =
      if pyLineBreak c then [] :: splitlines rest
      else match splitlines rest with
        | [] => [[c]]
        | l :: ls => (c :: l) :: ls := by
  rw [splitlines.eq_def]
  simp only [if_neg hc]

theorem splitlines_crlf (rest : Text) :
    splitlines ('\r' :: '\n' :: rest) = [] :: splitlines rest := rfl

theorem splitlines_cr_cons (c2 : Char) (rest2 : Text) (hc : ¬ c2 = '\n') :
    splitlines ('\r' :: c2 :: rest2) = [] :: splitlines (c2 :: rest2) := by
  rw [splitlines.eq_def]
  dsimp only
  rw [if_pos (show ('\x0d' : Char) = '\x0d' from rfl)]
  split
  · rename_i heq
    cases heq
  · rename_i rest3 heq
    injection heq with h1 h2
    exact absurd h1 hc
  · rename_i c3 rest3 hne heq
    injection heq with h1 h2
    rw [h1, h2]

/-- Every character of every line of splitlines comes from the text. -/
theorem mem_of_mem_splitlines (cs : Text) :
    ∀ l ∈ splitlines cs, ∀ c ∈ l, c ∈ cs := by
  induction cs using splitlines.induct with
  | case1 => intro l hl; simp [splitlines] at hl
  | case2 =>
    intro l hl c hc
    have heq : splitlines ['\r'] = [[]] := rfl
    rw [heq] at hl
    rw [List.mem_singleton.mp hl] at hc
    simp at hc
  | case3 rest2 ih =>
    intro l hl c hc
    rw [splitlines_crlf] at hl
    rcases List.mem_cons.mp hl with h | h
    · rw [h] at hc; simp at hc
    · exact List.mem_cons_of_mem _ (List.mem_cons_of_mem _ (ih l h c hc))
  | case4 c2 rest2 hne ih =>
    intro l hl c hc
    rw [splitlines_cr_cons c2 rest2 (fun h => hne h)] at hl
    rcases List.mem_cons.mp hl with h | h
    · rw [h] at hc; simp at hc
    · exact List.mem_cons_of_mem _ (ih l h c hc)
  | case5 c0 rest hcr hbr ih =>
    intro l hl c hc
    rw [splitlines_cons_of_ne_cr c0 rest hcr, if_pos hbr] at hl
    rcases List.mem_cons.mp hl with h | h
    · rw [h] at hc; simp at hc
    · exact List.mem_cons_of_mem _ (ih l h c hc)
  | case6 c0 rest hcr hbr hsl ih =>
    intro l hl c hc
    rw [splitlines_cons_of_ne_cr c0 rest hcr, if_neg hbr, hsl] at hl
    rw [List.mem_singleton.mp hl] at hc
    rw [List.mem_singleton.mp hc]
    exact List.mem_cons_self _ _
  | case7 c0 rest hcr hbr l0 ls0 hsl ih =>
    intro l hl c hc
    rw [splitlines_cons_of_ne_cr c0 rest hcr, if_neg hbr, hsl] at hl
    rcases List.mem_cons.mp hl with h | h
    · rw [h] at hc
      rcases List.mem_cons.mp hc with h2 | h2
      · rw [h2]; exact List.mem_cons_self _ _
      · exact List.mem_cons_of_mem _ (ih l0 (hsl ▸ List.mem_cons_self _ _) c h2)
    · exact List.mem_cons_of_mem _ (ih l (hsl ▸ List.mem_cons_of_mem _ h) c hc)

/-- No line of splitlines holds a line-boundary character. -/
theorem noBreak_mem_splitlines (cs : Text) :
    ∀ l ∈ splitlines cs, ∀ c ∈ l, pyLineBreak c = false := by
  induction cs using splitlines.induct with
  | case1 => intro l hl; simp [splitlines] at hl
  | case2 =>
    intro l hl c hc
    have heq : splitlines ['\r'] = [[]] := rfl
    rw [heq] at hl
    rw [List.mem_singleton.mp hl] at hc
    simp at hc
  | case3 rest2 ih =>
    intro l hl c hc
    rw [splitlines_crlf] at hl
    rcases List.mem_cons.mp hl with h | h
    · rw [h] at hc; simp at hc
    · exact ih l h c hc
  | case4 c2 rest2 hne ih =>
    intro l hl c hc
    rw [splitlines_cr_cons c2 rest2 (fun h => hne h)] at hl
    rcases List.mem_cons.mp hl with h | h
    · rw [h] at hc; simp at hc
    · exact ih l h c hc
  | case5 c0 rest hcr hbr ih =>
    intro l hl c hc
    rw [splitlines_cons_of_ne_cr c0 rest hcr, if_pos hbr] at hl
    rcases List.mem_cons.mp hl with h | h
    · rw [h] at hc; simp at hc
    · exact ih l h c hc
  | case6 c0 rest hcr hbr hsl ih =>
    intro l hl c hc
    rw [splitlines_cons_of_ne_cr c0 rest hcr, if_neg hbr, hsl] at hl
    rw [List.mem_singleton.mp hl] at hc
    rw [List.mem_singleton.mp hc]
    exact Bool.not_eq_true _ ▸ hbr
  | case7 c0 rest hcr hbr l0 ls0 hsl ih =>
    intro l hl c hc
    rw [splitlines_cons_of_ne_cr c0 rest hcr, if_neg hbr, hsl] at hl
    rcases List.mem_cons.mp hl with h | h
    · rw [h] at hc
      rcases List.mem_cons.mp hc with h2 | h2
      · rw [h2]; exact Bool.not_eq_true _ ▸ hbr
      · exact ih l0 (hsl ▸ List.mem_cons_self _ _) c h2
    · exact ih l (hsl ▸ List.mem_cons_of_mem _ h) c hc

theorem noNl_mem_splitlines (cs : Text) (l : Text) (hl : l ∈ splitlines cs) :
    '\n' ∉ l := by
  intro hmem
  have := noBreak_mem_splitlines cs l hl '\n' hmem
  simp [pyLineBreak] at this

/-- splitlines either equals the raw newline split (and then the last line
is not empty) or the raw split carries exactly one further trailing empty
part, whenever the newline is the only boundary character present. -/
theorem splitOnNl_eq_splitlines_or (cs : Text) (hnl : nlOnly cs) :
    (splitOnNl cs = splitlines cs ∧ (splitlines cs).getLast? ≠ some []) ∨
      splitOnNl cs = splitlines cs ++ [[]] := by
  induction cs with
  | nil => right; rfl
  | cons c rest ih =>
    have hrest : nlOnly rest := fun x hx => hnl x (List.mem_cons_of_mem _ hx)
    have hcr : ¬ c = '\r' := by
      intro h
      have h2 := hnl c (List.mem_cons_self _ _)
      rw [h] at h2
      exact absurd (h2 (by decide)) (by decide)
    by_cases hbr : pyLineBreak c = true
    · have hcn : c = '\n' := hnl c (List.mem_cons_self _ _) hbr
      subst hcn
      have hsl : splitlines ('\n' :: rest) = [] :: splitlines rest := by
        rw [splitlines_cons_of_ne_cr _ rest hcr, if_pos hbr]
      have hso : splitOnNl ('\n' :: rest) = [] :: splitOnNl rest := rfl
      rw [hsl, hso]
      rcases ih hrest with ⟨heq, hlast⟩ | heq
      · left
        refine ⟨by rw [heq], ?_⟩
        rcases h : splitlines rest with _ | ⟨x, xs⟩
        · rw [h] at heq
          exact absurd heq (splitOnNl_ne_nil rest)
        · rw [h] at hlast
          rw [List.getLast?_cons_cons]
          exact hlast
      · right
        rw [heq]
        rfl
    · have hcn : ¬ c = '\n' := by
        intro h
        rw [h] at hbr
        exact hbr (by decide)
      have hso : splitOnNl (c :: rest) =
          match splitOnNl rest with
          | [] => [[c]]
          | l :: ls => (c :: l) :: ls := by
        simp only [splitOnNl, if_neg hcn]
      have hsl : splitlines (c :: rest) =
          match splitlines rest with
          | [] => [[c]]
          | l :: ls => (c :: l) :: ls := by
        rw [splitlines_cons_of_ne_cr _ rest hcr, if_neg hbr]
      rcases ih hrest with ⟨heq, hlast⟩ | heq
      · rcases h : splitlines rest with _ | ⟨x, xs⟩
        · rw [h] at heq
          exact absurd heq (splitOnNl_ne_nil rest)
        · left
          rw [h] at heq hlast
          rw [hso, hsl, heq, h]
          refine ⟨rfl, ?_⟩
          rcases xs with _ | ⟨y, ys⟩
          · simp
          · rw [List.getLast?_cons_cons] at hlast ⊢
            exact hlast
      · rcases h : splitlines rest with _ | ⟨x, xs⟩
        · rw [h] at heq
          simp only [List.nil_append] at heq
          rw [hso, hsl, heq, h]
          left
          exact ⟨rfl, by simp⟩
        · rw [h] at heq
          rw [hso, hsl, heq, h, List.cons_append]
          right
          rfl

/-- A join of parts each free of boundary characters other than newline has
newline as its only boundary character. -/
theorem nlOnly_intercalateNl (ls : List Text) (h : ∀ l ∈ ls, nlOnly l) :
    nlOnly (intercalateNl ls) := by
  induction ls with
  | nil => intro c hc; simp [intercalateNl] at hc
  | cons x xs ih =>
    rcases xs with _ | ⟨y, ys⟩
    · exact h x (List.mem_cons_self _ _)
    · intro c hc hbr
      rcases List.mem_append.mp hc with hcx | hcy
      · exact h x (List.mem_cons_self _ _) c hcx hbr
      · rcases List.mem_cons.mp hcy with hceq | hcin
        · exact hceq
        · exact ih (fun l hl => h l (List.mem_cons_of_mem _ hl)) c hcin hbr

end Probe


namespace Probe

/-! Ordering of chunk positions produced by the text chunkers. -/

theorem enumFrom_fst_lower (l : List α) : ∀ (n : Nat), ∀ p ∈ List.enumFrom n l, n ≤ p.1 := by
  induction l with
  | nil => intro n p hp; simp [List.enumFrom] at hp
  | cons x xs ih =>
    intro n p hp
    rcases List.mem_cons.mp hp with h | h
    · subst h; exact le_refl n
    · exact Nat.le_of_succ_le (ih (n + 1) p h)

theorem enumFrom_fst_upper (l : List α) : ∀ (n : Nat), ∀ p ∈ List.enumFrom n l,
    p.1 < n + l.length := by
  induction l with
  | nil => intro n p hp; simp [List.enumFrom] at hp
  | cons x xs ih =>
    intro n p hp
    rcases List.mem_cons.mp hp with h | h
    · subst h; simp
    · have := ih (n + 1) p h
      simp only [List.length_cons]
      omega

theorem enumFrom_fst_pairwise (l : List α) : ∀ (n : Nat),
    (List.enumFrom n l).Pairwise (fun a b => a.1 < b.1) := by
  induction l with
  | nil => intro n; simp [List.enumFrom]
  | cons x xs ih =>
    intro n
    simp only [List.enumFrom]
    refine List.Pairwise.cons ?_ (ih (n + 1))
    intro p hp
    have := enumFrom_fst_lower xs (n + 1) p hp
    omega

theorem clLoop_start_ge (path : String) (kind : ChunkKind) (lines : List Text)
    (csz ov : Nat) (hov : ov < csz) :
    ∀ (fuel i : Nat), ∀ c ∈ clLoop path kind lines csz ov fuel i, i + 1 ≤ c.startLine := by
  intro fuel
  induction fuel with
  | zero => intro i c hc; simp [clLoop] at hc
  | succ fuel ih =>
    intro i c hc
    simp only [clLoop] at hc
    by_cases hcont : lines.length ≤ min (i + csz) lines.length
    · rw [if_pos hcont] at hc
      have := List.mem_singleton.mp hc
      subst this
      rfl
    · rw [if_neg hcont] at hc
      rcases List.mem_cons.mp hc with h | h
      · subst h; rfl
      · have hrec := ih (min (i + csz) lines.length - ov) c h
        have hmin : min (i + csz) lines.length = i + csz := by
          rcases Nat.le_total (i + csz) lines.length with hle | hle
          · exact Nat.min_eq_left hle
          · have heq : min (i + csz) lines.length = lines.length := Nat.min_eq_right hle
            rw [heq] at hcont
            omega
        rw [hmin] at hrec
        omega

theorem clLoop_pairwise (path : String) (kind : ChunkKind) (lines : List Text)
    (csz ov : Nat) (hov : ov < csz) :
    ∀ (fuel i : Nat),
      (clLoop path kind lines csz ov fuel i).Pairwise
        (fun a b => a.startLine < b.startLine) := by
  intro fuel
  induction fuel with
  | zero => intro i; simp [clLoop]
  | succ fuel ih =>
    intro i
    simp only [clLoop]
    split
    · simp
    · rename_i hcont
      refine List.Pairwise.cons ?_ (ih _)
      intro c hc
      have hrec := clLoop_start_ge path kind lines csz ov hov fuel
        (min (i + csz) lines.length - ov) c hc
      have hmin : min (i + csz) lines.length = i + csz := by
        rcases Nat.le_total (i + csz) lines.length with hle | hle
        · exact Nat.min_eq_left hle
        · have heq : min (i + csz) lines.length = lines.length := Nat.min_eq_right hle
          rw [heq] at hcont
          omega
      rw [hmin] at hrec
      show i + 1 < c.startLine
      omega

theorem chunkLines_pairwise (content : Text) (path : String) (csz ov : Nat)
    (kind : ChunkKind) (hov : ov < csz) :
    (chunkLines content path csz ov kind).Pairwise (fun a b => a.startLine < b.startLine) := by
  simp only [chunkLines]
  split
  · simp
  · split
    · simp
    · exact clLoop_pairwise path kind (splitlines content) csz ov hov _ _

theorem mdLoop_pairwise (path : String) (lines : List Text) :
    ∀ (rest : List (Nat × Text)) (chunks : List Chunk) (curStart : Nat) (curHeading : Text),
      (∀ c ∈ chunks, c.startLine ≤ curStart) →
      chunks.Pairwise (fun a b => a.startLine < b.startLine) →
      (∀ p ∈ rest, curStart ≤ p.1) →
      rest.Pairwise (fun a b => a.1 < b.1) →
      (mdLoop path lines rest chunks curStart curHeading).Pairwise
        (fun a b => a.startLine < b.startLine) := by
  intro rest
  induction rest with
  | nil =>
    intro chunks curStart curHeading hub hpw hcur hrpw
    simp only [mdLoop]
    split
    · split
      · refine List.pairwise_append.mpr ⟨hpw, by simp, ?_⟩
        intro a ha b hb
        have hb2 := List.mem_singleton.mp hb
        subst hb2
        have := hub a ha
        show a.startLine < curStart + 1
        omega
      · exact hpw
    · exact hpw
  | cons e rest ih =>
    intro chunks curStart curHeading hub hpw hcur hrpw
    rcases e with ⟨i, line⟩
    simp only [mdLoop]
    split
    · have hci : curStart ≤ i := hcur (i, line) (List.mem_cons_self _ _)
      have hcur2 : ∀ p ∈ rest, i ≤ p.1 := by
        intro p hp
        exact Nat.le_of_lt (List.rel_of_pairwise_cons hrpw hp)
      have hrpw2 := List.Pairwise.of_cons hrpw
      split
      · rename_i hlt
        split
        · refine ih (chunks ++ [_]) i _ ?_ ?_ hcur2 hrpw2
          · intro c hc
            rcases List.mem_append.mp hc with h | h
            · exact le_trans (hub c h) hci
            · have h2 := List.mem_singleton.mp h
              subst h2
              show curStart + 1 ≤ i
              omega
          · refine List.pairwise_append.mpr ⟨hpw, by simp, ?_⟩
            intro a ha b hb
            have hb2 := List.mem_singleton.mp hb
            subst hb2
            have := hub a ha
            show a.startLine < curStart + 1
            omega
        · refine ih chunks i _ (fun c hc => le_trans (hub c hc) hci) hpw hcur2 hrpw2
      · refine ih chunks i _ ?_ hpw hcur2 hrpw2
        rename_i hnlt
        intro c hc
        have : i ≤ curStart := Nat.le_of_not_lt hnlt
        have h2 : curStart ≤ i := hci
        have : i = curStart := le_antisymm this h2
        rw [this]
        exact hub c hc
    · exact ih chunks curStart _ hub hpw
        (fun p hp => hcur p (List.mem_cons_of_mem _ hp)) (List.Pairwise.of_cons hrpw)

theorem chunkMarkdown_pairwise (content : Text) (path : String) :
    (chunkMarkdown content path).Pairwise (fun a b => a.startLine < b.startLine) := by
  simp only [chunkMarkdown]
  split
  · simp
  · split
    · simp
    · refine mdLoop_pairwise path (splitlines content) _ [] 0 _ (by simp) (by simp) ?_ ?_
      · intro p hp; exact Nat.zero_le _
      · have := enumFrom_fst_pairwise (splitlines content) 0
        simpa [List.enum] using this

/-- Without a parse tree the tree-sitter branch of chunk_file yields no
chunks, so chunk_file falls through to the text strategies. -/
theorem chunkFile_none_ts (content : Text) (path : String) :
    chunkFile none content path =
      if detectKind path = .doc ∧ pathSuffixLower path = strT ".md" then
        chunkMarkdown content path
      else chunkLines content path DEFAULT_CHUNK_LINES DEFAULT_OVERLAP_LINES
        (detectKind path) := by
  simp only [chunkFile]
  rcases detectLanguage path with _ | lang
  · simp
  · simp only []
    split
    · simp [chunkWithTreeSitter]
    · simp

/-- The text strategies emit chunks with strictly increasing start lines,
so chunk positions are pairwise distinct on the fallback paths. -/
theorem chunkFile_pairwise (content : Text) (path : String) :
    (chunkFile none content path).Pairwise (fun a b => a.startLine < b.startLine) := by
  rw [chunkFile_none_ts]
  split
  · exact chunkMarkdown_pairwise content path
  · exact chunkLines_pairwise content path DEFAULT_CHUNK_LINES DEFAULT_OVERLAP_LINES _
      (by decide)

end Probe


namespace Probe

/-! The catalog after a successful index: freshness of the chunk upserts. -/

/-- The primary key of the chunks table. -/
def sameKey (a b : ChunkRow) : Prop :=
  a.filePath = b.filePath ∧ a.startLine = b.startLine ∧ a.endLine = b.endLine

theorem upsertFile_chunks (cat : Catalog) (p : String) (m : Int) (sz : Nat)
    (fh : String) (err : Option String) :
    (cat.upsertFile p m sz fh err).chunks = cat.chunks := by
  simp only [Catalog.upsertFile]
  split <;> rfl

theorem upsertChunkRow_fresh (cat : Catalog) (row : ChunkRow)
    (h : ∀ r ∈ cat.chunks, ¬ sameKey r row) :
    (cat.upsertChunkRow row).chunks = cat.chunks ++ [row] := by
  simp only [Catalog.upsertChunkRow]
  have hany : (cat.chunks.any (fun r =>
      decide (r.filePath = row.filePath ∧ r.startLine = row.startLine ∧
        r.endLine = row.endLine))) = false := by
    rw [List.any_eq_false]
    intro r hr
    have := h r hr
    simpa [sameKey] using this
  rw [hany]
  simp

theorem upsertChunks_fresh (rows : List ChunkRow) :
    ∀ (cat : Catalog),
      (∀ a ∈ rows, ∀ b ∈ cat.chunks, ¬ sameKey b a) →
      rows.Pairwise (fun a b => ¬ sameKey a b) →
      (cat.upsertChunks rows).chunks = cat.chunks ++ rows := by
  induction rows with
  | nil => intro cat hfresh hpw; simp [Catalog.upsertChunks]
  | cons row rest ih =>
    intro cat hfresh hpw
    have hstep : (cat.upsertChunkRow row).chunks = cat.chunks ++ [row] :=
      upsertChunkRow_fresh cat row
        (fun r hr => hfresh row (List.mem_cons_self _ _) r hr)
    have hrec := ih (cat.upsertChunkRow row) ?_ (List.Pairwise.of_cons hpw)
    · calc (cat.upsertChunks (row :: rest)).chunks
          = ((cat.upsertChunkRow row).upsertChunks rest).chunks := rfl
        _ = (cat.upsertChunkRow row).chunks ++ rest := hrec
        _ = (cat.chunks ++ [row]) ++ rest := by rw [hstep]
        _ = cat.chunks ++ row :: rest := by simp
    · intro a ha b hb
      rw [hstep] at hb
      rcases List.mem_append.mp hb with h | h
      · exact hfresh a (List.mem_cons_of_mem _ ha) b h
      · have hb2 := List.mem_singleton.mp h
        subst hb2
        exact List.rel_of_pairwise_cons hpw ha

/-- The rows accumulated by the per-chunk loop, as a function of the chunk
list and the starting ordinal. -/
def expectedRows (wsId : List Nat) (relPath : String) : Nat → List Chunk → List ChunkRow
  | _, [] => []
  | idx, c :: rest =>
    ⟨relPath, c.startLine, c.endLine, computeChunkHash c.content,
     uuidToString (computePointId wsId relPath c.startLine c.endLine), idx⟩ ::
      expectedRows wsId relPath (idx + 1) rest

theorem qUpsertLoop_rows (wsId : List Nat) (repoId fh relPath : String)
    (ok : Nat → Bool) (cs : List Chunk) :
    ∀ (q : QdrantState) (idx : Nat) (qf : QdrantState) (rows : List ChunkRow),
      qUpsertLoop wsId repoId fh relPath ok q idx cs = (qf, some rows) →
      rows = expectedRows wsId relPath idx cs := by
  induction cs with
  | nil =>
    intro q idx qf rows h
    simp only [qUpsertLoop, Prod.mk.injEq, Option.some.injEq] at h
    rw [← h.2]
    rfl
  | cons c rest ih =>
    intro q idx qf rows h
    simp only [qUpsertLoop] at h
    split at h
    · rcases hrec : qUpsertLoop wsId repoId fh relPath ok
          (qUpsert q ⟨uuidToString (computePointId wsId relPath c.startLine c.endLine),
            repoId, uuidToString wsId, relPath, fh,
            computeChunkHash c.content, c.startLine, c.endLine⟩) (idx + 1) rest
          with ⟨qf2, orows⟩
      rw [hrec] at h
      rcases orows with _ | rows2
      · simp at h
      · simp only [Prod.mk.injEq, Option.some.injEq] at h
        have hr := ih _ _ _ _ hrec
        rw [← h.2, hr]
        rfl
    · simp at h

theorem expectedRows_path (wsId : List Nat) (relPath : String) :
    ∀ (idx : Nat) (cs : List Chunk) (r : ChunkRow),
      r ∈ expectedRows wsId relPath idx cs → r.filePath = relPath := by
  intro idx cs
  induction cs generalizing idx with
  | nil => intro r hr; simp [expectedRows] at hr
  | cons c rest ih =>
    intro r hr
    rcases List.mem_cons.mp hr with h | h
    · subst h; rfl
    · exact ih (idx + 1) r h

theorem expectedRows_map_idx (wsId : List Nat) (relPath : String) :
    ∀ (idx : Nat) (cs : List Chunk),
      (expectedRows wsId relPath idx cs).map (fun r => r.chunkIdx) =
        List.range' idx cs.length := by
  intro idx cs
  induction cs generalizing idx with
  | nil => simp [expectedRows]
  | cons c rest ih =>
    simp only [expectedRows, List.map_cons, List.length_cons, List.range'_succ]
    rw [ih (idx + 1)]

theorem expectedRows_positions (wsId : List Nat) (relPath : String) :
    ∀ (idx : Nat) (cs : List Chunk),
      (expectedRows wsId relPath idx cs).map (fun r => (r.startLine, r.endLine)) =
        cs.map (fun c => (c.startLine, c.endLine)) := by
  intro idx cs
  induction cs generalizing idx with
  | nil => simp [expectedRows]
  | cons c rest ih =>
    simp only [expectedRows, List.map_cons]
    rw [ih (idx + 1)]

theorem mem_expectedRows (wsId : List Nat) (relPath : String) :
    ∀ (idx : Nat) (cs : List Chunk) (r : ChunkRow),
      r ∈ expectedRows wsId relPath idx cs →
      ∃ c ∈ cs, r.startLine = c.startLine ∧ r.endLine = c.endLine := by
  intro idx cs
  induction cs generalizing idx with
  | nil => intro r hr; simp [expectedRows] at hr
  | cons c rest ih =>
    intro r hr
    rcases List.mem_cons.mp hr with h | h
    · subst h; exact ⟨c, List.mem_cons_self _ _, rfl, rfl⟩
    · rcases ih (idx + 1) r h with ⟨c2, hc2, he⟩
      exact ⟨c2, List.mem_cons_of_mem _ hc2, he⟩

theorem expectedRows_pairwise (wsId : List Nat) (relPath : String) :
    ∀ (idx : Nat) (cs : List Chunk),
      cs.Pairwise (fun a b => ¬ (a.startLine = b.startLine ∧ a.endLine = b.endLine)) →
      (expectedRows wsId relPath idx cs).Pairwise (fun a b => ¬ sameKey a b) := by
  intro idx cs
  induction cs generalizing idx with
  | nil => intro hpw; simp [expectedRows]
  | cons c rest ih =>
    intro hpw
    simp only [expectedRows]
    refine List.Pairwise.cons ?_ (ih (idx + 1) (List.Pairwise.of_cons hpw))
    intro r hr hk
    rcases mem_expectedRows wsId relPath (idx + 1) rest r hr with ⟨c2, hc2, hs, he⟩
    have hne := List.rel_of_pairwise_cons hpw hc2
    exact hne ⟨hk.2.1.trans hs, hk.2.2.trans he⟩

/-- C5 amended: after every successful index_file call that wrote n positive
chunks, provided the chunker output carries pairwise-distinct line positions
(always true of the Markdown and line-window strategies, but violable by the
AST strategy, whose nested same-position semantic nodes collapse under the
chunks primary key), the chunk rows of the file in the catalog are exactly
the rows derived from the n chunks the chunker just produced (no rows
survive from an earlier indexing) with positions in chunker order, and their
chunk_idx values are exactly the range 0..n. -/
theorem claim5_amended (relPath repoId : String) (wsId : List Nat)
    (disk : DiskFile) (oracle : Oracle) (st : SysState) (raw : Text) (n : Nat)
    (hdec : utf8Decode disk.bytes = some raw)
    (hpw : (chunkFile oracle.tsParse (univNl raw) relPath).Pairwise
      (fun a b => ¬ (a.startLine = b.startLine ∧ a.endLine = b.endLine)))
    (hres : (indexFile relPath repoId wsId disk oracle st).result = some n)
    (hn : 0 < n) :
    n = (chunkFile oracle.tsParse (univNl raw) relPath).length ∧
      (indexFile relPath repoId wsId disk oracle st).state.catalog.chunksFor relPath =
        expectedRows wsId relPath 0 (chunkFile oracle.tsParse (univNl raw) relPath) ∧
      ((expectedRows wsId relPath 0 (chunkFile oracle.tsParse (univNl raw) relPath)).map
          (fun r => (r.startLine, r.endLine)) =
        (chunkFile oracle.tsParse (univNl raw) relPath).map (fun c => (c.startLine, c.endLine))) ∧
      ((indexFile relPath repoId wsId disk oracle st).state.catalog.chunksFor relPath).map
          (fun r => r.chunkIdx) =
        List.range n := by
  have hskip : recordMatches (st.catalog.getFile relPath) disk = false := by
    by_contra hc
    rw [Bool.not_eq_false] at hc
    simp only [indexFile, hc] at hres
    simp at hres
    omega
  have hres2 := hres
  simp only [indexFile, hskip, Bool.false_eq_true, if_false, hdec, Option.map_some,
    Option.map_some'] at hres2
  by_cases hch : chunkFile oracle.tsParse (univNl raw) relPath = []
  · rw [if_pos hch] at hres2
    simp at hres2
    omega
  · rw [if_neg hch] at hres2
    rcases hemb : oracle.embedCount (List.map (fun c => c.content)
        (chunkFile oracle.tsParse (univNl raw) relPath)) with _ | m <;>
      simp only [hemb] at hres2
    · simp at hres2
    · split at hres2
      · simp at hres2
      · rename_i hm
        rcases hloop : qUpsertLoop wsId repoId (computeFileHash disk.bytes) relPath
            oracle.qdrantUpsertOk (qDeleteByFile st.qdrant (uuidToString wsId) relPath)
            0 (chunkFile oracle.tsParse (univNl raw) relPath) with ⟨qf, orows⟩
        simp only [hloop] at hres2
        rcases orows with _ | rows
        · simp at hres2
        · simp only [Option.some.injEq] at hres2
          have hrows := qUpsertLoop_rows wsId repoId (computeFileHash disk.bytes) relPath
            oracle.qdrantUpsertOk (chunkFile oracle.tsParse (univNl raw) relPath) _ _ _ _ hloop
          have hpwr := expectedRows_pairwise wsId relPath 0 _ hpw
          have hbase : ∀ b ∈ ((st.catalog.deleteFileChunks relPath).upsertFile relPath
              disk.mtime disk.size (computeFileHash disk.bytes) none).chunks,
              ¬ b.filePath = relPath := by
            intro b hb
            rw [upsertFile_chunks] at hb
            simp only [Catalog.deleteFileChunks, List.mem_filter] at hb
            simpa using hb.2
          have hfresh : ∀ a ∈ rows, ∀ b ∈ ((st.catalog.deleteFileChunks relPath).upsertFile
              relPath disk.mtime disk.size (computeFileHash disk.bytes) none).chunks,
              ¬ sameKey b a := by
            intro a ha b hb hk
            have hpa : a.filePath = relPath := by
              rw [hrows] at ha
              exact expectedRows_path wsId relPath 0 _ a ha
            exact hbase b hb (hk.1.trans hpa)
          have hup := upsertChunks_fresh rows _ hfresh (hrows ▸ hpwr)
          have hstate : indexFile relPath repoId wsId disk oracle st =
              ⟨some (chunkFile oracle.tsParse (univNl raw) relPath).length,
               ⟨((st.catalog.deleteFileChunks relPath).upsertFile relPath disk.mtime disk.size
                   (computeFileHash disk.bytes) none).upsertChunks rows, qf⟩, true⟩ := by
            simp only [indexFile, hskip, Bool.false_eq_true, if_false, hdec, Option.map_some,
              Option.map_some']
            rw [if_neg hch]
            split
            · rename_i heq
              rw [hemb] at heq
              cases heq
            · rename_i k heq
              rw [hemb] at heq
              injection heq with hk
              subst hk
              rw [if_neg hm]
              split
              · rename_i qf2 heq2
                rw [hloop] at heq2
                simp at heq2
              · rename_i qf2 rows2 heq2
                rw [hloop] at heq2
                simp only [Prod.mk.injEq, Option.some.injEq] at heq2
                obtain ⟨hq, hr⟩ := heq2
                subst hq
                subst hr
                rfl
          have hchunksFor : (((st.catalog.deleteFileChunks relPath).upsertFile relPath
              disk.mtime disk.size (computeFileHash disk.bytes) none).upsertChunks
                rows).chunksFor relPath = rows := by
            simp only [Catalog.chunksFor, hup, List.filter_append]
            have h1 : (((st.catalog.deleteFileChunks relPath).upsertFile relPath disk.mtime
                disk.size (computeFileHash disk.bytes) none).chunks).filter
                (fun r => r.filePath = relPath) = [] := by
              rw [List.filter_eq_nil_iff]
              intro b hb
              simpa using hbase b hb
            have h2 : rows.filter (fun r => r.filePath = relPath) = rows := by
              rw [List.filter_eq_self]
              intro a ha
              have := expectedRows_path wsId relPath 0 _ a (hrows ▸ ha)
              simpa using this
            rw [h1, h2, List.nil_append]
          rw [hstate]
          refine ⟨by omega, ?_, expectedRows_positions wsId relPath 0 _, ?_⟩
          · show (((st.catalog.deleteFileChunks relPath).upsertFile relPath disk.mtime
                disk.size (computeFileHash disk.bytes) none).upsertChunks
                  rows).chunksFor relPath = _
            rw [hchunksFor, hrows]
          · show ((((st.catalog.deleteFileChunks relPath).upsertFile relPath disk.mtime
                disk.size (computeFileHash disk.bytes) none).upsertChunks
                  rows).chunksFor relPath).map (fun r => r.chunkIdx) = _
            rw [hchunksFor, hrows, expectedRows_map_idx]
            have hlen : n = (chunkFile oracle.tsParse (univNl raw) relPath).length := by omega
            rw [hlen, List.range_eq_range']

end Probe


namespace Probe

/-- Concrete scenario for the wholesale-replace claim: a changed one-byte
file with a stale chunk row at another position in the catalog. -/
def c5St : SysState :=
  ⟨⟨[("f.txt", ⟨1, 1, "h", none⟩)], [⟨"f.txt", 9, 9, "old", "opid", 0⟩]⟩, ⟨[]⟩⟩

def c5Oracle : Oracle := ⟨fun ts => some ts.length, fun _ => true, none⟩

def c5Disk : DiskFile := ⟨2, 1, [97]⟩

/-- Witness: indexing the one-line file writes one chunk; the stale row at
lines 9 to 9 is gone and the rows are exactly the expected one with
chunk_idx 0. -/
theorem claim5_amended_witness :
    utf8Decode c5Disk.bytes = some (strT "a") ∧
      (indexFile "f.txt" "r" (List.replicate 16 0) c5Disk c5Oracle c5St).result = some 1 ∧
      (indexFile "f.txt" "r" (List.replicate 16 0) c5Disk c5Oracle
            c5St).state.catalog.chunksFor "f.txt" =
        expectedRows (List.replicate 16 0) "f.txt" 0
          (chunkFile none (univNl (strT "a")) "f.txt") ∧
      ((indexFile "f.txt" "r" (List.replicate 16 0) c5Disk c5Oracle
            c5St).state.catalog.chunksFor "f.txt").map (fun r => r.chunkIdx) =
        List.range 1 :=
  ⟨by decide, by decide,
   (claim5_amended "f.txt" "r" (List.replicate 16 0) c5Disk c5Oracle c5St
      (strT "a") 1 (by decide) (by decide) (by decide) (by decide)).2.1,
   (claim5_amended "f.txt" "r" (List.replicate 16 0) c5Disk c5Oracle c5St
      (strT "a") 1 (by decide) (by decide) (by decide) (by decide)).2.2.2⟩

/-- The tree-sitter parse of a one-line JavaScript file holding an arrow
function whose body is a further arrow function, as tree-sitter-javascript
reports it: both arrow_function nodes span row zero. -/
def c5AstTree : TSNode :=
  .node "program" 0 0 (strT "const a = () => () => 1") (TSForest.ofList [
    .node "lexical_declaration" 0 0 (strT "const a = () => () => 1")
      (TSForest.ofList [
        .node "const" 0 0 (strT "const") .nil,
        .node "variable_declarator" 0 0 (strT "a = () => () => 1")
          (TSForest.ofList [
            .node "identifier" 0 0 (strT "a") .nil,
            .node "=" 0 0 (strT "=") .nil,
            .node "arrow_function" 0 0 (strT "() => () => 1")
              (TSForest.ofList [
                .node "formal_parameters" 0 0 (strT "()") .nil,
                .node "=>" 0 0 (strT "=>") .nil,
                .node "arrow_function" 0 0 (strT "() => 1")
                  (TSForest.ofList [
                    .node "formal_parameters" 0 0 (strT "()") .nil,
                    .node "=>" 0 0 (strT "=>") .nil,
                    .node "number" 0 0 (strT "1") .nil])])])])])

def c5AstDisk : DiskFile := ⟨1, 23, utf8EncodeStr "const a = () => () => 1"⟩

def c5AstOracle : Oracle :=
  ⟨fun ts => some ts.length, fun _ => true, some c5AstTree⟩

def c5AstSt : SysState := ⟨⟨[], []⟩, ⟨[]⟩⟩

/-- C5 counterexample to the original claim: indexing a one-line JavaScript
file whose parse holds two nested arrow functions spanning the same line.
The AST chunker emits two chunks with one position and index_file returns
2, but the rows collapse under the (file, start, end) primary key of the
chunks table: a single row survives, carrying chunk_idx 1 — the catalog
holds neither exactly the two produced chunks nor the chunk_idx range 0..2. -/
theorem claim5_counterexample :
    (chunkFile c5AstOracle.tsParse (univNl (strT "const a = () => () => 1"))
        "a.js").length = 2 ∧
      (indexFile "a.js" "r" (List.replicate 16 0) c5AstDisk c5AstOracle
          c5AstSt).result = some 2 ∧
      ((indexFile "a.js" "r" (List.replicate 16 0) c5AstDisk c5AstOracle
          c5AstSt).state.catalog.chunksFor "a.js").map (fun r => r.chunkIdx) = [1] ∧
      ¬ ((indexFile "a.js" "r" (List.replicate 16 0) c5AstDisk c5AstOracle
            c5AstSt).state.catalog.chunksFor "a.js" =
          expectedRows (List.replicate 16 0) "a.js" 0
            (chunkFile c5AstOracle.tsParse
              (univNl (strT "const a = () => () => 1")) "a.js")) ∧
      ¬ (((indexFile "a.js" "r" (List.replicate 16 0) c5AstDisk c5AstOracle
            c5AstSt).state.catalog.chunksFor "a.js").map (fun r => r.chunkIdx) =
          List.range 2) := by
  refine ⟨by decide, by decide, by decide, by decide, by decide⟩

end Probe


namespace Probe

/-! The exact byte slice of a line range, and trailing-newline stripping,
as the chunk-content sentence of the specification describes them. -/

/-- All trailing newline characters removed. -/
def stripTrailNl (cs : Text) : Text :=
  (cs.reverse.dropWhile (fun c => c = '\n')).reverse

/-- At most one final newline character removed. -/
def dropLastNl (cs : Text) : Text :=
  if cs.getLast? = some '\n' then cs.dropLast else cs

/-- The exact byte substring of the file covering lines a to b, 1-indexed
inclusive: the raw newline-separated parts of that range joined back with
newlines, plus the terminator of line b whenever line b is followed by one
in the file. -/
def lineSliceBytes (content : Text) (a b : Nat) : Text :=
  let parts := splitOnNl content
  intercalateNl (pySlice parts (a - 1) b) ++ (if b < parts.length then ['\n'] else [])

/-- Sanity: the slice covering every line of the file is the file itself. -/
theorem lineSliceBytes_all (content : Text) :
    lineSliceBytes content 1 (splitOnNl content).length = content := by
  simp only [lineSliceBytes, pySlice, List.take_length, List.drop_zero, lt_irrefl, if_false,
    List.append_nil, Nat.sub_self]
  simpa using intercalateNl_splitOnNl content

theorem dropLastNl_append_nl (x : Text) : dropLastNl (x ++ ['\n']) = x := by
  simp [dropLastNl, List.getLast?_concat, List.dropLast_concat]

theorem getLast?_intercalateNl (ls : List Text) (lv : Text)
    (hl : ls.getLast? = some lv) (hne : lv ≠ []) :
    (intercalateNl ls).getLast? = lv.getLast? := by
  induction ls with
  | nil => simp at hl
  | cons x xs ih =>
    rcases xs with _ | ⟨y, ys⟩
    · simp only [List.getLast?_singleton, Option.some.injEq] at hl
      subst hl
      rfl
    · have hl2 : (y :: ys).getLast? = some lv := by
        rw [← hl]
        exact List.getLast?_cons_cons.symm
      have ihr := ih hl2
      have hnonnil : intercalateNl (y :: ys) ≠ [] := by
        intro hz
        rw [hz] at ihr
        have : lv.getLast? = none := ihr.symm
        rcases lv with _ | ⟨c, cr⟩
        · exact hne rfl
        · simp at this
      calc (intercalateNl (x :: y :: ys)).getLast?
          = (x ++ '\n' :: intercalateNl (y :: ys)).getLast? := rfl
        _ = ('\n' :: intercalateNl (y :: ys)).getLast? := by
            rw [List.getLast?_append_of_ne_nil]
            simp
        _ = (intercalateNl (y :: ys)).getLast? := by
            rcases hznn : intercalateNl (y :: ys) with _ | ⟨z, zs⟩
            · exact absurd hznn hnonnil
            · simp [List.getLast?_cons_cons]
        _ = lv.getLast? := ihr

theorem getLast?_drop_of_lt (l : List α) : ∀ (n : Nat), n < l.length →
    (l.drop n).getLast? = l.getLast? := by
  induction l with
  | nil => intro n hn; simp at hn
  | cons x xs ih =>
    intro n hn
    rcases n with _ | n
    · rfl
    · have hx : n < xs.length := by simpa using hn
      have := ih n hx
      rw [List.drop_succ_cons, this]
      rcases xs with _ | ⟨y, ys⟩
      · simp at hx
      · exact List.getLast?_cons_cons.symm

/-- The bridge between the joined line slice and the stripped byte slice:
for a valid nonempty 1-indexed inclusive range, joining the lines of the
range with newlines equals the byte slice minus its final line terminator. -/
theorem intercalateNl_slice_eq_dropLastNl (content : Text) (a b : Nat)
    (hnl : nlOnly content)
    (ha : 1 ≤ a) (hab : a ≤ b) (hb : b ≤ (splitlines content).length) :
    intercalateNl (pySlice (splitlines content) (a - 1) b) =
      dropLastNl (lineSliceBytes content a b) := by
  rcases splitOnNl_eq_splitlines_or content hnl with ⟨hcase, hlastne⟩ | hcase
  · by_cases hblt : b < (splitOnNl content).length
    · rw [hcase] at hblt
      simp only [lineSliceBytes, hcase, if_pos hblt]
      rw [dropLastNl_append_nl]
    · have hbeq : b = (splitOnNl content).length := by
        rw [hcase] at hblt ⊢
        omega
      have hblt2 : ¬ b < (splitlines content).length := by rw [← hcase]; exact hblt
      simp only [lineSliceBytes, hcase, if_neg hblt2, List.append_nil]
      have hlen0 : 0 < (splitlines content).length := by omega
      have hslice : pySlice (splitlines content) (a - 1) b = (splitlines content).drop (a - 1) := by
        simp only [pySlice]
        rw [hcase] at hbeq
        rw [hbeq, List.take_length]
      rw [hslice]
      have hdroplt : a - 1 < (splitlines content).length := by omega
      have hlast : ((splitlines content).drop (a - 1)).getLast? = (splitlines content).getLast? :=
        getLast?_drop_of_lt (splitlines content) (a - 1) hdroplt
      rcases hgl : (splitlines content).getLast? with _ | lv
      · have : splitlines content = [] := List.getLast?_eq_none_iff.mp hgl
        rw [this] at hlen0
        simp at hlen0
      · have hlvne : lv ≠ [] := by
          intro hz
          rw [hz] at hgl
          exact hlastne hgl
        have hlv_mem : lv ∈ splitlines content := List.mem_of_mem_getLast? hgl
        have hlv_nonl : '\n' ∉ lv := noNl_mem_splitlines content lv hlv_mem
        have hglast2 : ((splitlines content).drop (a - 1)).getLast? = some lv := by
          rw [hlast, hgl]
        have hfin := getLast?_intercalateNl ((splitlines content).drop (a - 1)) lv hglast2 hlvne
        rcases hlvlast : lv.getLast? with _ | c
        · rw [List.getLast?_eq_none_iff] at hlvlast
          exact absurd hlvlast hlvne
        · have hcne : ¬ (intercalateNl ((splitlines content).drop (a - 1))).getLast? =
              some '\n' := by
            rw [hfin, hlvlast]
            intro hcc
            have : c = '\n' := Option.some.inj hcc
            exact hlv_nonl (this ▸ List.mem_of_mem_getLast? hlvlast)
          simp only [dropLastNl, if_neg hcne]
  · have hblt : b < (splitOnNl content).length := by
      rw [hcase]
      simp only [List.length_append, List.length_singleton]
      omega
    simp only [lineSliceBytes, if_pos hblt]
    rw [dropLastNl_append_nl, hcase]
    have : pySlice (splitlines content ++ [[]]) (a - 1) b =
        pySlice (splitlines content) (a - 1) b := by
      simp only [pySlice]
      rw [List.take_append_eq_append_take]
      have : b - (splitlines content).length = 0 := by omega
      rw [this]
      simp
    rw [this]

end Probe


namespace Probe

/-! Content of every chunk the text chunkers emit, as a function of its
line range. -/

/-- The loop chunks of chunk_lines carry exactly the join of their line
range, with in-range 1-indexed bounds. -/
theorem clLoop_content (path : String) (kind : ChunkKind) (lines : List Text)
    (csz ov : Nat) (hcsz : 1 ≤ csz) :
    ∀ (fuel i : Nat), i < lines.length →
      ∀ c ∈ clLoop path kind lines csz ov fuel i,
        c.content = intercalateNl (pySlice lines (c.startLine - 1) c.endLine) ∧
          1 ≤ c.startLine ∧ c.startLine ≤ c.endLine ∧ c.endLine ≤ lines.length := by
  intro fuel
  induction fuel with
  | zero => intro i hi c hc; simp [clLoop] at hc
  | succ fuel ih =>
    intro i hi c hc
    simp only [clLoop] at hc
    by_cases hcont : lines.length ≤ min (i + csz) lines.length
    · rw [if_pos hcont] at hc
      have hce := List.mem_singleton.mp hc
      subst hce
      refine ⟨rfl, by show 1 ≤ i + 1; omega, ?_, ?_⟩
      · show i + 1 ≤ min (i + csz) lines.length
        rcases Nat.le_total (i + csz) lines.length with h | h
        · rw [Nat.min_eq_left h]; omega
        · rw [Nat.min_eq_right h]; omega
      · show min (i + csz) lines.length ≤ lines.length
        exact Nat.min_le_right _ _
    · rw [if_neg hcont] at hc
      rcases List.mem_cons.mp hc with hce | hce
      · subst hce
        refine ⟨rfl, by show 1 ≤ i + 1; omega, ?_, ?_⟩
        · show i + 1 ≤ min (i + csz) lines.length
          rcases Nat.le_total (i + csz) lines.length with h | h
          · rw [Nat.min_eq_left h]; omega
          · rw [Nat.min_eq_right h]; omega
        · show min (i + csz) lines.length ≤ lines.length
          exact Nat.min_le_right _ _
      · refine ih (min (i + csz) lines.length - ov) ?_ c hce
        have hmr := Nat.min_le_right (i + csz) lines.length
        have hlt : min (i + csz) lines.length < lines.length := by omega
        omega

/-- The section chunks of chunk_markdown carry exactly the join of their
line range, with in-range 1-indexed bounds. -/
theorem mdLoop_content (path : String) (lines : List Text) :
    ∀ (rest : List (Nat × Text)) (chunks : List Chunk) (curStart : Nat) (curHeading : Text),
      (∀ c ∈ chunks,
        c.content = intercalateNl (pySlice lines (c.startLine - 1) c.endLine) ∧
          1 ≤ c.startLine ∧ c.startLine ≤ c.endLine ∧ c.endLine ≤ lines.length) →
      curStart ≤ lines.length →
      (∀ p ∈ rest, p.1 < lines.length) →
      ∀ c ∈ mdLoop path lines rest chunks curStart curHeading,
        c.content = intercalateNl (pySlice lines (c.startLine - 1) c.endLine) ∧
          1 ≤ c.startLine ∧ c.startLine ≤ c.endLine ∧ c.endLine ≤ lines.length := by
  intro rest
  induction rest with
  | nil =>
    intro chunks curStart curHeading hacc hcur hrest c hc
    simp only [mdLoop] at hc
    split at hc
    · rename_i hlt
      split at hc
      · rcases List.mem_append.mp hc with h | h
        · exact hacc c h
        · have hce := List.mem_singleton.mp h
          subst hce
          refine ⟨by simp, ?_, ?_, ?_⟩
          · show 1 ≤ curStart + 1
            omega
          · show curStart + 1 ≤ lines.length
            omega
          · show lines.length ≤ lines.length
            omega
      · exact hacc c hc
    · exact hacc c hc
  | cons e rest ih =>
    intro chunks curStart curHeading hacc hcur hrest c hc
    rcases e with ⟨i, line⟩
    have hilen : i < lines.length := hrest (i, line) (List.mem_cons_self _ _)
    have hrest2 : ∀ p ∈ rest, p.1 < lines.length :=
      fun p hp => hrest p (List.mem_cons_of_mem _ hp)
    simp only [mdLoop] at hc
    split at hc
    · split at hc
      · rename_i hlt
        split at hc
        · refine ih _ i _ ?_ (by omega) hrest2 c hc
          intro c2 hc2
          rcases List.mem_append.mp hc2 with h | h
          · exact hacc c2 h
          · have hce := List.mem_singleton.mp h
            subst hce
            refine ⟨by simp, ?_, ?_, ?_⟩
            · show 1 ≤ curStart + 1
              omega
            · show curStart + 1 ≤ i
              omega
            · show i ≤ lines.length
              omega
        · exact ih _ i _ hacc (by omega) hrest2 c hc
      · exact ih _ i _ hacc (by omega) hrest2 c hc
    · exact ih _ curStart _ hacc hcur hrest2 c hc

/-- Every chunk of chunk_markdown is either an exact line-range join or the
single verbatim whole-file chunk of the heading-free fallback. -/
theorem chunkMarkdown_content (content : Text) (path : String) (c : Chunk)
    (hc : c ∈ chunkMarkdown content path) :
    (c.content = intercalateNl
        (pySlice (splitlines content) (c.startLine - 1) c.endLine) ∧
      1 ≤ c.startLine ∧ c.startLine ≤ c.endLine ∧
      c.endLine ≤ (splitlines content).length) ∨
    (c.startLine = 1 ∧ c.endLine = (splitlines content).length ∧ c.content = content) := by
  simp only [chunkMarkdown] at hc
  split at hc
  · simp at hc
  · split at hc
    · have hce := List.mem_singleton.mp hc
      subst hce
      right
      exact ⟨rfl, rfl, rfl⟩
    · left
      refine mdLoop_content path (splitlines content) (splitlines content).enum [] 0 _
        (by simp) (Nat.zero_le _) ?_ c hc
      intro p hp
      have := enumFrom_fst_upper (splitlines content) 0 p (by simpa [List.enum] using hp)
      omega

/-- Every chunk of chunk_lines is either an exact line-range join or the
single verbatim whole-file chunk of the small-file path. -/
theorem chunkLines_content (content : Text) (path : String) (csz ov : Nat)
    (kind : ChunkKind) (hcsz : 1 ≤ csz) (c : Chunk)
    (hc : c ∈ chunkLines content path csz ov kind) :
    (c.content = intercalateNl
        (pySlice (splitlines content) (c.startLine - 1) c.endLine) ∧
      1 ≤ c.startLine ∧ c.startLine ≤ c.endLine ∧
      c.endLine ≤ (splitlines content).length) ∨
    (c.startLine = 1 ∧ c.endLine = (splitlines content).length ∧ c.content = content) := by
  simp only [chunkLines] at hc
  split at hc
  · simp at hc
  · split at hc
    · have hce := List.mem_singleton.mp hc
      subst hce
      right
      exact ⟨rfl, rfl, rfl⟩
    · rename_i hnil hlen
      left
      refine clLoop_content path kind (splitlines content) csz ov hcsz _ 0 ?_ c hc
      rcases hsp : splitlines content with _ | ⟨x, xs⟩
      · exact absurd hsp hnil
      · simp

/-- C8 counterexample: a two-line file ending in a newline.  chunk_lines
returns one chunk covering lines 1 to 2 whose content keeps the final
newline, so it is not the byte slice of the range minus its trailing
newlines. -/
theorem claim8_counterexample :
    chunkLines (strT "a\nb\n") "t.txt" 150 30 ChunkKind.code =
        [⟨"t.txt", 1, 2, strT "a\nb\n", none, ChunkKind.code, none⟩] ∧
      stripTrailNl (lineSliceBytes (strT "a\nb\n") 1 2) = strT "a\nb" ∧
      ¬ strT "a\nb\n" = stripTrailNl (lineSliceBytes (strT "a\nb\n") 1 2) := by
  refine ⟨by decide, by decide, by decide⟩

/-- C8 amended: on a file whose only line-boundary character is the newline
(other Python boundaries such as the form feed make the chunkers join lines
with a newline where the file has another character, so the chunk is no
byte slice), every chunk of the Markdown and line-window chunkers either
carries the byte slice of its 1-indexed inclusive line range minus the
final line terminator of that slice, or is the single whole-file chunk of
a fast path (a file of at most 150 lines in chunk_lines, or a heading-free
Markdown file), which carries the original file content verbatim,
including any final trailing newline. -/
theorem claim8_amended (content : Text) (path : String) (kind : ChunkKind) (c : Chunk)
    (hnl : nlOnly content)
    (hc : c ∈ chunkMarkdown content path ∨ c ∈ chunkLines content path 150 30 kind) :
    c.content = dropLastNl (lineSliceBytes content c.startLine c.endLine) ∨
      (c.startLine = 1 ∧ c.endLine = (splitlines content).length ∧ c.content = content) := by
  have hchar := hc.elim (chunkMarkdown_content content path c)
    (chunkLines_content content path 150 30 kind (by decide) c)
  rcases hchar with ⟨hcontent, ha, hab, hb⟩ | hright
  · left
    rw [hcontent]
    exact intercalateNl_slice_eq_dropLastNl content c.startLine c.endLine hnl ha hab hb
  · right
    exact hright

/-- Witness: the heading section of a concrete Markdown file is the byte
slice of lines 1 to 2 minus its final terminator, and the verbatim branch
covers a small plain file ending in a newline. -/
theorem claim8_amended_witness :
    (⟨"t.md", 1, 2, strT "# A\nx", some "markdown", ChunkKind.doc, some (strT "A")⟩ : Chunk) ∈
        chunkMarkdown (strT "# A\nx\n# B") "t.md" ∧
      strT "# A\nx" = dropLastNl (lineSliceBytes (strT "# A\nx\n# B") 1 2) := by
  have h := claim8_amended (strT "# A\nx\n# B") "t.md" ChunkKind.doc
    ⟨"t.md", 1, 2, strT "# A\nx", some "markdown", ChunkKind.doc, some (strT "A")⟩
    (by decide) (Or.inl (by decide))
  refine ⟨by decide, ?_⟩
  rcases h with h | h
  · exact h
  · exact absurd h.2.1 (by decide)

end Probe


namespace Probe

/-! Visible content of lines: support for the round-trip coverage claim. -/

/-- A line with at least one non-whitespace character. -/
def hasInk (l : Text) : Bool := l.any (fun ch => !(pyIsSpace ch))

theorem hasInk_nil : hasInk [] = false := rfl

theorem filter_hasInk_splitOnNl (cs : Text) (hnl : nlOnly cs) :
    (splitOnNl cs).filter hasInk = (splitlines cs).filter hasInk := by
  rcases splitOnNl_eq_splitlines_or cs hnl with ⟨hc, _⟩ | hc
  · rw [hc]
  · rw [hc, List.filter_append]
    simp [hasInk]

theorem pyStrip_eq_nil_iff (cs : Text) : pyStrip cs = [] ↔ ∀ c ∈ cs, pyIsSpace c := by
  constructor
  · intro h c hc
    by_contra hcp
    have hdw : cs.dropWhile pyIsSpace ≠ [] := by
      intro hz
      rw [List.dropWhile_eq_nil_iff] at hz
      exact hcp (hz c hc)
    have h2 : (cs.dropWhile pyIsSpace).reverse.dropWhile pyIsSpace = [] := by
      have := congrArg List.reverse h
      simpa [pyStrip] using this
    rw [List.dropWhile_eq_nil_iff] at h2
    have hall : ∀ a ∈ cs.dropWhile pyIsSpace, pyIsSpace a := by
      intro a ha
      exact h2 a (List.mem_reverse.mpr ha)
    have : ∀ a ∈ cs, pyIsSpace a := by
      intro a ha
      rcases List.mem_append.mp
          ((List.takeWhile_append_dropWhile (p := pyIsSpace) (l := cs)) ▸ ha) with h3 | h3
      · exact List.mem_takeWhile_imp h3
      · exact hall a h3
    exact hcp (this c hc)
  · intro h
    have h1 : cs.dropWhile pyIsSpace = [] := List.dropWhile_eq_nil_iff.mpr h
    simp [pyStrip, h1]

theorem mem_intercalateNl (ls : List Text) (l : Text) (c : Char)
    (hc : c ∈ l) (hl : l ∈ ls) : c ∈ intercalateNl ls := by
  induction ls with
  | nil => simp at hl
  | cons x xs ih =>
    rcases xs with _ | ⟨y, ys⟩
    · have := List.mem_singleton.mp hl
      subst this
      exact hc
    · rcases List.mem_cons.mp hl with h | h
      · rw [h] at hc
        show c ∈ x ++ '\n' :: intercalateNl (y :: ys)
        exact List.mem_append_left _ hc
      · show c ∈ x ++ '\n' :: intercalateNl (y :: ys)
        exact List.mem_append_right _ (List.mem_cons_of_mem _ (ih h))

/-- A section whose joined content strips to nothing has no visible line. -/
theorem noInk_of_strip_nil (ls : List Text) (h : pyStrip (intercalateNl ls) = []) :
    ∀ l ∈ ls, hasInk l = false := by
  intro l hl
  by_contra hink
  rw [Bool.not_eq_false, hasInk, List.any_eq_true] at hink
  rcases hink with ⟨c, hc, hcp⟩
  have hmem := mem_intercalateNl ls l c hc hl
  have := (pyStrip_eq_nil_iff _).mp h c hmem
  simp [this] at hcp

theorem mem_of_mem_splitOnNl (cs : Text) (l : Text) (c : Char)
    (hc : c ∈ l) (hl : l ∈ splitOnNl cs) : c ∈ cs := by
  have h1 : c ∈ intercalateNl (splitOnNl cs) := mem_intercalateNl _ l c hc hl
  rw [intercalateNl_splitOnNl] at h1
  exact h1

/-- Splitting distributes over joining a nonempty list of pieces. -/
theorem splitOnNl_join (pieces : List Text) (hne : pieces ≠ []) :
    splitOnNl (intercalateNl pieces) = (pieces.map splitOnNl).flatten := by
  induction pieces with
  | nil => exact absurd rfl hne
  | cons x xs ih =>
    rcases xs with _ | ⟨y, ys⟩
    · simp [intercalateNl]
    · calc splitOnNl (intercalateNl (x :: y :: ys))
          = splitOnNl (x ++ '\n' :: intercalateNl (y :: ys)) := rfl
        _ = splitOnNl x ++ splitOnNl (intercalateNl (y :: ys)) := splitOnNl_append_cons _ _
        _ = splitOnNl x ++ ((y :: ys).map splitOnNl).flatten := by rw [ih (by simp)]
        _ = ((x :: y :: ys).map splitOnNl).flatten := by simp

theorem filter_join (p : α → Bool) (ls : List (List α)) :
    ls.flatten.filter p = (ls.map (List.filter p)).flatten := by
  induction ls with
  | nil => rfl
  | cons x xs ih => simp [List.filter_append, ih]

theorem take_sublist_take (l : List α) (i j : Nat) (h : i ≤ j) :
    List.Sublist (l.take i) (l.take j) := by
  have h1 : (l.take j).take i = l.take i := by
    rw [List.take_take, Nat.min_eq_left h]
  rw [← h1]
  exact List.take_sublist i (l.take j)

theorem drop_sublist_drop (l : List α) (i j : Nat) (h : i ≤ j) :
    List.Sublist (l.drop j) (l.drop i) := by
  have h1 : (l.drop i).drop (j - i) = l.drop j := by
    rw [List.drop_drop]
    congr 1
    omega
  rw [← h1]
  exact List.drop_sublist (j - i) (l.drop i)

end Probe


namespace Probe

/-! Coverage: the joined chunk lines keep every visible line, in order. -/

theorem take_eq_take_append_slice (l : List α) (a b : Nat) (h : a ≤ b) :
    l.take b = l.take a ++ pySlice l a b := by
  simp only [pySlice]
  conv_lhs => rw [← List.take_append_drop a (l.take b)]
  rw [List.take_take, Nat.min_eq_left h]

theorem pySlice_ne_nil (l : List α) (a b : Nat) (hab : a < b) (hal : a < l.length) :
    pySlice l a b ≠ [] := by
  intro hz
  have hlen := congrArg List.length hz
  simp only [pySlice, List.length_drop, List.length_take, List.length_nil] at hlen
  rcases Nat.le_total b l.length with h | h
  · rw [Nat.min_eq_left h] at hlen; omega
  · rw [Nat.min_eq_right h] at hlen; omega

theorem pySlice_sublist (l : List α) (a b : Nat) : List.Sublist (pySlice l a b) l := by
  simp only [pySlice]
  exact (List.drop_sublist a (l.take b)).trans (List.take_sublist b l)

/-- A newline join of a slice of the lines of a text has the newline as its
only boundary character, since the lines themselves are boundary-free. -/
theorem nlOnly_slice_join (content : Text) (a b : Nat) :
    nlOnly (intercalateNl (pySlice (splitlines content) a b)) := by
  refine nlOnly_intercalateNl _ ?_
  intro l hl c hc hbr
  have hmem := (pySlice_sublist (splitlines content) a b).subset hl
  rw [noBreak_mem_splitlines content l hmem c hc] at hbr
  cases hbr

theorem splitOnNl_section (lines : List Text) (hnl : ∀ l ∈ lines, '\n' ∉ l)
    (a b : Nat) (hne : pySlice lines a b ≠ []) :
    splitOnNl (intercalateNl (pySlice lines a b)) = pySlice lines a b :=
  splitOnNl_intercalateNl _ hne
    (fun l hl => hnl l ((pySlice_sublist lines a b).subset hl))

theorem filter_hasInk_slice_nil (lines : List Text) (a b : Nat)
    (h : pyStrip (intercalateNl (pySlice lines a b)) = []) :
    (pySlice lines a b).filter hasInk = [] := by
  rw [List.filter_eq_nil_iff]
  intro l hl
  have := noInk_of_strip_nil _ h l hl
  simp [this]

theorem clLoop_cover (path : String) (kind : ChunkKind) (lines : List Text)
    (csz ov : Nat) (hov : ov < csz) (hnl : ∀ l ∈ lines, '\n' ∉ l) :
    ∀ (fuel i : Nat), i < lines.length → lines.length - i ≤ fuel →
      List.Sublist ((lines.drop i).filter hasInk)
        (((clLoop path kind lines csz ov fuel i).map
            (fun c => (splitOnNl c.content).filter hasInk)).flatten) := by
  intro fuel
  induction fuel with
  | zero => intro i hi hf; omega
  | succ fuel ih =>
    intro i hi hf
    simp only [clLoop]
    by_cases hcont : lines.length ≤ min (i + csz) lines.length
    · rw [if_pos hcont]
      have he : min (i + csz) lines.length = lines.length :=
        le_antisymm (Nat.min_le_right _ _) hcont
      simp only [List.map_cons, List.map_nil, List.flatten_cons, List.flatten_nil,
        List.append_nil]
      have hslice : pySlice lines i (min (i + csz) lines.length) = lines.drop i := by
        rw [he]
        simp [pySlice]
      have hne : pySlice lines i (min (i + csz) lines.length) ≠ [] := by
        rw [hslice]
        intro hz
        have : lines.length ≤ i := by
          have := congrArg List.length hz
          simp only [List.length_drop, List.length_nil] at this
          omega
        omega
      rw [splitOnNl_section lines hnl _ _ hne, hslice]
    · rw [if_neg hcont]
      have hlt : min (i + csz) lines.length < lines.length := by
        have := Nat.min_le_right (i + csz) lines.length
        omega
      have he : min (i + csz) lines.length = i + csz := by
        rcases Nat.le_total (i + csz) lines.length with h | h
        · exact Nat.min_eq_left h
        · have := Nat.min_eq_right h
          omega
      rw [he] at hlt ⊢
      simp only [List.map_cons, List.flatten_cons]
      have hdecomp : lines.drop i = pySlice lines i (i + csz) ++ lines.drop (i + csz) := by
        conv_lhs => rw [← List.take_append_drop (i + csz) lines]
        rw [List.drop_append_eq_append_drop]
        have hl1 : (lines.take (i + csz)).length = i + csz := by
          rw [List.length_take, Nat.min_eq_left (by omega)]
        rw [hl1]
        have : i - (i + csz) = 0 := by omega
        rw [this, List.drop_zero]
        rfl
      rw [hdecomp, List.filter_append]
      have hne : pySlice lines i (i + csz) ≠ [] :=
        pySlice_ne_nil lines i (i + csz) (by omega) hi
      rw [splitOnNl_section lines hnl _ _ hne]
      refine List.Sublist.append (List.Sublist.refl _) ?_
      refine List.Sublist.trans ?_ (ih (i + csz - ov) (by omega) (by omega))
      exact List.Sublist.filter _ (drop_sublist_drop lines (i + csz - ov) (i + csz) (by omega))

theorem mdLoop_cover (path : String) (lines : List Text)
    (hnl : ∀ l ∈ lines, '\n' ∉ l) :
    ∀ (rest : List (Nat × Text)) (chunks : List Chunk) (curStart : Nat) (curHeading : Text),
      List.Sublist ((lines.take curStart).filter hasInk)
        ((chunks.map (fun c => (splitOnNl c.content).filter hasInk)).flatten) →
      curStart ≤ lines.length →
      (∀ p ∈ rest, p.1 < lines.length) →
      List.Sublist (lines.filter hasInk)
        (((mdLoop path lines rest chunks curStart curHeading).map
            (fun c => (splitOnNl c.content).filter hasInk)).flatten) := by
  intro rest
  induction rest with
  | nil =>
    intro chunks curStart curHeading hinv hcur hrest
    simp only [mdLoop]
    split
    · rename_i hlt
      have hdecomp : lines.take lines.length =
          lines.take curStart ++ pySlice lines curStart lines.length :=
        take_eq_take_append_slice lines curStart lines.length hcur
      rw [List.take_length] at hdecomp
      split
      · rename_i hstrip
        simp only [List.map_append, List.map_cons, List.map_nil, List.flatten_append,
          List.flatten_cons, List.flatten_nil, List.append_nil]
        conv_lhs => rw [hdecomp]
        rw [List.filter_append]
        have hne : pySlice lines curStart lines.length ≠ [] :=
          pySlice_ne_nil lines curStart lines.length hlt hlt
        rw [splitOnNl_section lines hnl _ _ hne]
        exact List.Sublist.append hinv (List.Sublist.refl _)
      · rename_i hstrip
        rw [Ne, not_not] at hstrip
        conv_lhs => rw [hdecomp]
        rw [List.filter_append, filter_hasInk_slice_nil lines curStart lines.length hstrip,
          List.append_nil]
        exact hinv
    · rename_i hge
      have hcs : curStart = lines.length := by omega
      have : lines.take curStart = lines := by
        rw [hcs, List.take_length]
      rw [← this]
      exact hinv
  | cons e rest ih =>
    intro chunks curStart curHeading hinv hcur hrest
    rcases e with ⟨i, line⟩
    have hilen : i < lines.length := hrest _ (List.mem_cons_self _ _)
    have hrest2 : ∀ p ∈ rest, p.1 < lines.length :=
      fun p hp => hrest p (List.mem_cons_of_mem _ hp)
    simp only [mdLoop]
    split
    · split
      · rename_i hlt
        split
        · rename_i hstrip
          refine ih _ i _ ?_ (by omega) hrest2
          have hti : lines.take i = lines.take curStart ++ pySlice lines curStart i :=
            take_eq_take_append_slice lines curStart i (by omega)
          rw [hti, List.filter_append]
          simp only [List.map_append, List.map_cons, List.map_nil, List.flatten_append,
            List.flatten_cons, List.flatten_nil, List.append_nil]
          have hne : pySlice lines curStart i ≠ [] :=
            pySlice_ne_nil lines curStart i hlt (by omega)
          rw [splitOnNl_section lines hnl _ _ hne]
          exact List.Sublist.append hinv (List.Sublist.refl _)
        · rename_i hstrip
          rw [Ne, not_not] at hstrip
          refine ih _ i _ ?_ (by omega) hrest2
          have hti : lines.take i = lines.take curStart ++ pySlice lines curStart i :=
            take_eq_take_append_slice lines curStart i (by omega)
          rw [hti, List.filter_append, filter_hasInk_slice_nil lines curStart i hstrip,
            List.append_nil]
          exact hinv
      · rename_i hge
        refine ih _ i _ ?_ (by omega) hrest2
        refine List.Sublist.trans ?_ hinv
        exact List.Sublist.filter _ (take_sublist_take lines i curStart (by omega))
    · exact ih _ curStart _ hinv hcur hrest2

end Probe


namespace Probe

/-- From per-chunk line coverage to the lines of the joined chunk text, for
chunks whose contents have the newline as their only boundary character. -/
theorem cover_to_splitlines (content : Text) (chunks : List Chunk)
    (hnlc : ∀ c ∈ chunks, nlOnly c.content)
    (hcov : List.Sublist ((splitlines content).filter hasInk)
      ((chunks.map (fun c => (splitOnNl c.content).filter hasInk)).flatten)) :
    List.Sublist ((splitlines content).filter hasInk)
      (splitlines (intercalateNl (chunks.map (fun c => c.content)))) := by
  by_cases hch : chunks = []
  · rw [hch] at hcov
    simp only [List.map_nil, List.flatten_nil] at hcov
    have hfn := List.sublist_nil.mp hcov
    rw [hfn]
    exact List.nil_sublist _
  · have hne : chunks.map (fun c => c.content) ≠ [] := by
      intro hz
      exact hch (by simpa using hz)
    have h1 : (chunks.map (fun c => (splitOnNl c.content).filter hasInk)).flatten =
        (splitOnNl (intercalateNl (chunks.map (fun c => c.content)))).filter hasInk := by
      rw [splitOnNl_join _ hne, filter_join]
      simp only [List.map_map]
      rfl
    have hjnl : nlOnly (intercalateNl (chunks.map (fun c => c.content))) := by
      refine nlOnly_intercalateNl _ ?_
      intro l hl
      rcases List.mem_map.mp hl with ⟨c, hc, hceq⟩
      rw [← hceq]
      exact hnlc c hc
    rw [h1, filter_hasInk_splitOnNl _ hjnl] at hcov
    exact hcov.trans (List.filter_sublist _)

theorem chunkMarkdown_cover (content : Text) (path : String) :
    List.Sublist ((splitlines content).filter hasInk)
      (splitlines (intercalateNl
        ((chunkMarkdown content path).map (fun c => c.content)))) := by
  simp only [chunkMarkdown]
  split
  · rename_i hnil
    rw [hnil]
    simp
  · rename_i hnil
    split
    · show List.Sublist ((splitlines content).filter hasInk)
        (splitlines (intercalateNl [content]))
      exact List.filter_sublist _
    · rename_i hfb
      refine cover_to_splitlines content _ ?_ ?_
      · intro c hc
        have hcont := mdLoop_content path (splitlines content)
          ((splitlines content).enum) [] 0 (strT "(intro)") (by simp)
          (Nat.zero_le _) ?_ c hc
        · rw [hcont.1]
          exact nlOnly_slice_join content _ _
        · intro p hp
          have := enumFrom_fst_upper (splitlines content) 0 p
            (by simpa [List.enum] using hp)
          omega
      · refine mdLoop_cover path (splitlines content)
          (noNl_mem_splitlines content) _ [] 0 _ (by simp) (Nat.zero_le _) ?_
        intro p hp
        have := enumFrom_fst_upper (splitlines content) 0 p
          (by simpa [List.enum] using hp)
        omega

theorem chunkLines_cover (content : Text) (path : String) (csz ov : Nat)
    (kind : ChunkKind) (hov : ov < csz) :
    List.Sublist ((splitlines content).filter hasInk)
      (splitlines (intercalateNl
        ((chunkLines content path csz ov kind).map (fun c => c.content)))) := by
  simp only [chunkLines]
  split
  · rename_i hnil
    rw [hnil]
    simp
  · rename_i hnil
    split
    · show List.Sublist ((splitlines content).filter hasInk)
        (splitlines (intercalateNl [content]))
      exact List.filter_sublist _
    · rename_i hlen
      have hpos : 0 < (splitlines content).length := by
        rcases hsp : splitlines content with _ | ⟨x, xs⟩
        · exact absurd hsp hnil
        · simp
      refine cover_to_splitlines content _ ?_ ?_
      · intro c hc
        have hcont := clLoop_content path kind (splitlines content) csz ov
          (by omega) _ 0 hpos c hc
        rw [hcont.1]
        exact nlOnly_slice_join content _ _
      · have := clLoop_cover path kind (splitlines content) csz ov hov
          (noNl_mem_splitlines content) (splitlines content).length 0 hpos (by omega)
        simpa using this

/-- C9 counterexample: a Markdown file whose intro section is a single
whitespace-only line.  The section is dropped, so that line, which is not
the empty string, appears in no chunk: concatenating the chunk contents
does not contain every non-empty line of the file. -/
theorem claim9_counterexample :
    chunkMarkdown (strT "   \n# h\nx") "t.md" =
        [⟨"t.md", 2, 3, strT "# h\nx", some "markdown", ChunkKind.doc, some (strT "h")⟩] ∧
      strT "   " ∈ (splitlines (strT "   \n# h\nx")).filter (fun l => ¬ l = []) ∧
      strT "   " ∉ splitlines (intercalateNl
        ((chunkMarkdown (strT "   \n# h\nx") "t.md").map (fun c => c.content))) ∧
      ¬ List.Sublist ((splitlines (strT "   \n# h\nx")).filter (fun l => ¬ l = []))
        (splitlines (intercalateNl
          ((chunkMarkdown (strT "   \n# h\nx") "t.md").map (fun c => c.content)))) := by
  refine ⟨by decide, by decide, by decide, ?_⟩
  intro hsub
  exact (by decide : strT "   " ∉ splitlines (intercalateNl
      ((chunkMarkdown (strT "   \n# h\nx") "t.md").map (fun c => c.content))))
    (hsub.subset (by decide))

/-- C9 amended: for every file content, chunking it with the Markdown or
the line-window strategy and concatenating the chunk contents in chunk_idx
order yields a text that contains every line of the original file holding
at least one non-whitespace character, in original order (duplicates from
window overlaps permitted).  Whitespace-only lines can be lost: Markdown
sections that strip to nothing are dropped. -/
theorem claim9_amended (content : Text) (path : String) (kind : ChunkKind) :
    List.Sublist ((splitlines content).filter hasInk)
        (splitlines (intercalateNl
          ((chunkMarkdown content path).map (fun c => c.content)))) ∧
      List.Sublist ((splitlines content).filter hasInk)
        (splitlines (intercalateNl
          ((chunkLines content path 150 30 kind).map (fun c => c.content)))) :=
  ⟨chunkMarkdown_cover content path,
   chunkLines_cover content path 150 30 kind (by decide)⟩

end Probe
